import Mathlib

/-!
Shallow embedding of `src/structures/BitStream.ts` (node-raknet) and proofs about it.

Modelling conventions:
* A Node `Buffer` is a `List Nat` of byte values; `Buffer.alloc n` is
  `List.replicate n 0`; `src.copy(dst)` overwrites the first
  `min src.length dst.length` bytes of `dst` with those of `src`.
* Node throws a `RangeError` when `readUInt8` is called with an out-of-range
  index; the modelled methods therefore return `Except (String × BitStream) _`,
  where an error carries the state of the object at the moment the exception is
  thrown (a thrown JS exception leaves the object with all mutations performed
  so far in place).
* JavaScript numbers flowing through the bit operations are modelled as `Nat`
  (with explicit masking exactly where the source masks).  Where the source
  applies a 32-bit signed bitwise operation whose sign extension is invisible in
  the observable behaviour (only the low byte of the operand is consumed by
  `writeByte`), the translation keeps the `Nat` value; such places are noted in
  comments.
* The private field `#byte` of the source class is a dead store (assigned in the
  constructor and in `readBits`, never read anywhere); it is omitted from the
  modelled state.
* The `#mask` lookup table of the source is `[0x01, ..., 0x80]`, i.e.
  `fun i => 1 <<< i` for `i < 8`; bit cursor positions of reachable states
  always lie in `0..7`, where the two representations agree.
-/

/-- State of a `BitStream` object: the buffer, its byte count and the two
bit cursors (bit positions count down from 7, most significant bit first). -/
structure BitStream where
  data : List Nat
  byteCount : Nat
  readBytePosition : Nat
  readBitPosition : Nat
  writeBytePosition : Nat
  writeBitPosition : Nat
deriving Repr, DecidableEq

/-- Result of a modelled method: a value, or a thrown exception (message plus the
state of the stream at the moment of the throw). -/
abbrev BRes (α : Type) : Type := Except (String × BitStream) α

/-- Translation of the constructor `new BitStream(data)`: `byteCount` is the
length of the supplied buffer and both cursors start at byte 0, bit 7. -/
def BitStream.new (d : List Nat) : BitStream :=
  { data := d, byteCount := d.length,
    readBytePosition := 0, readBitPosition := 7,
    writeBytePosition := 0, writeBitPosition := 7 }

/-- Translation of `new BitStream()` (no argument): the empty buffer. -/
def BitStream.fresh : BitStream := BitStream.new []

/-- Translation of `length()`. -/
def BitStream.length (s : BitStream) : Nat := s.byteCount

/-- Translation of `bits()`: `writeBytePosition * 8 + (8 - writeBitPosition) - 1`.
In reachable states `writeBitPosition ≤ 7`, where truncated `Nat` subtraction
agrees with the JS number arithmetic. -/
def BitStream.bits (s : BitStream) : Nat :=
  s.writeBytePosition * 8 + (8 - s.writeBitPosition) - 1

/-- Translation of `allRead()`: `readByte*8 + readBit >= byteCount*8 - 1`.
For `byteCount = 0` the source compares against `-1` (always true) and the
truncated model compares against `0` (also always true), so the two agree. -/
def BitStream.allRead (s : BitStream) : Bool :=
  decide (s.byteCount * 8 - 1 ≤ s.readBytePosition * 8 + s.readBitPosition)

/-- Node `Buffer.alloc n`: `n` zero bytes. -/
def bufferAlloc (n : Nat) : List Nat := List.replicate n 0

/-- Node `src.copy(dst)`: the first `min src.length dst.length` bytes of `dst`
are replaced by those of `src`; the copy never extends `dst`. -/
def bufferCopy (src dst : List Nat) : List Nat :=
  src.take dst.length ++ dst.drop (min src.length dst.length)

/-- Translation of the body of `writeBit(b)` after its `typeof` guard, i.e. the
code run when the argument is an actual boolean.  The guard itself is modelled
by `BitStream.writeBitChecked`.  On `writeBitPosition == 7` the source
reallocates the buffer to `writeBytePosition + 1` bytes, copies the old
contents over and zeroes the byte at `writeBytePosition`; it then ORs the bit
into the current byte and advances the cursor (decrement, with reset to 7 and
byte advance when the position would become negative). -/
def BitStream.writeBit (s : BitStream) (b : Bool) : BRes BitStream :=
  let s1 :=
    if s.writeBitPosition = 7 then
      let grown := (bufferCopy s.data (bufferAlloc (s.writeBytePosition + 1))).set
        s.writeBytePosition 0
      { s with data := grown, byteCount := s.writeBytePosition + 1 }
    else s
  match s1.data[s1.writeBytePosition]? with
  | none => .error ("RangeError: readUInt8 out of range", s1)
  | some byte =>
    let byte1 := byte ||| ((if b then 1 else 0) <<< s1.writeBitPosition)
    let s2 := { s1 with data := s1.data.set s1.writeBytePosition byte1 }
    if s2.writeBitPosition = 0 then
      .ok { s2 with writeBitPosition := 7,
                    writeBytePosition := s2.writeBytePosition + 1 }
    else
      .ok { s2 with writeBitPosition := s2.writeBitPosition - 1 }

/-- A JavaScript value as far as the `typeof` guard of `writeBit` can tell. -/
inductive JSValue where
  | boolean : Bool → JSValue
  | number : Int → JSValue
  | string : String → JSValue
  | nullValue : JSValue
  | undefinedValue : JSValue
deriving Repr, DecidableEq

/-- Translation of the public `writeBit(b)` including its first statement, the
`typeof(b) !== "boolean"` guard: a non-boolean argument throws before any
mutation, so the carried error state is the unmodified input state. -/
def BitStream.writeBitChecked (s : BitStream) (v : JSValue) : BRes BitStream :=
  match v with
  | .boolean b => s.writeBit b
  | _ => .error ("BitStream writeBit was not passed a boolean", s)

/-- Translation of the loop body shared by `writeByte` (8 iterations) and
`writeSignedByte` (7 iterations): take the top bit of the low byte of `n`,
write it, shift `n` left and mask to a byte.  The counter is the number of
remaining iterations. -/
def BitStream.writeByteLoop (s : BitStream) (n : Nat) : Nat → BRes BitStream
  | 0 => .ok s
  | i + 1 => do
    let t := (n &&& 0x80) >>> 7
    let s2 ← s.writeBit (t == 1)
    BitStream.writeByteLoop s2 ((n <<< 1) &&& 0xFF) i

/-- Translation of `writeByte(n)`: eight iterations of the shared loop. -/
def BitStream.writeByte (s : BitStream) (n : Nat) : BRes BitStream :=
  s.writeByteLoop n 8

/-- Translation of `writeBits(n, b)`: for `i = b` down to `1` write bit
`(n >> (i-1)) & 1`. -/
def BitStream.writeBits (s : BitStream) (n : Nat) : Nat → BRes BitStream
  | 0 => .ok s
  | i + 1 => do
    let temp := (n >>> i) &&& 0x01
    let s2 ← s.writeBit (temp == 1)
    s2.writeBits n i

/-- Translation of `readBit()`.  When the read cursor is at or past
`byteCount`, the source first sets `writeBytePosition := readBytePosition` and
calls `writeByte(0)` (the zero-fill-on-overread path); it then extracts bit
`readBitPosition` of the byte at `readBytePosition` and advances the read
cursor with the same decrement-and-roll rule as the write cursor. -/
def BitStream.readBit (s : BitStream) : BRes (Nat × BitStream) := do
  let s1 ←
    if s.byteCount ≤ s.readBytePosition then
      BitStream.writeByte { s with writeBytePosition := s.readBytePosition } 0
    else pure s
  match s1.data[s1.readBytePosition]? with
  | none => .error ("RangeError: readUInt8 out of range", s1)
  | some byte =>
    let bit := (byte &&& ((1 : Nat) <<< s1.readBitPosition)) >>> s1.readBitPosition
    if s1.readBitPosition = 0 then
      .ok (bit, { s1 with readBitPosition := 7,
                          readBytePosition := s1.readBytePosition + 1 })
    else
      .ok (bit, { s1 with readBitPosition := s1.readBitPosition - 1 })

/-- Translation of the loop of `readBits(n)`: accumulate `val = (val << 1) | bit`.
The dead store to the private `#byte` field performed by the source before the
loop is omitted (that field is never read). -/
def BitStream.readBitsLoop (s : BitStream) (val : Nat) : Nat → BRes (Nat × BitStream)
  | 0 => .ok (val, s)
  | n + 1 => do
    let (bit, s2) ← s.readBit
    BitStream.readBitsLoop s2 ((val <<< 1) ||| bit) n

/-- Translation of `readBits(n)`. -/
def BitStream.readBits (s : BitStream) (n : Nat) : BRes (Nat × BitStream) :=
  s.readBitsLoop 0 n

/-- Translation of `readByte()`: `readBits(8)`. -/
def BitStream.readByte (s : BitStream) : BRes (Nat × BitStream) :=
  s.readBits 8

/-- Translation of the loop of `readBytes(n)`: `while (n-- && readBytePosition <
length())` append `readByte()` to a fresh stream via `writeByte`.  Returns the
new stream together with the mutated source stream. -/
def BitStream.readBytesLoop (s val : BitStream) : Nat → BRes (BitStream × BitStream)
  | 0 => .ok (val, s)
  | n + 1 =>
    if s.readBytePosition < s.length then do
      let (b, s2) ← s.readByte
      let val2 ← val.writeByte b
      BitStream.readBytesLoop s2 val2 n
    else .ok (val, s)

/-- Translation of `readBytes(n)`. -/
def BitStream.readBytes (s : BitStream) (n : Nat) : BRes (BitStream × BitStream) :=
  BitStream.readBytesLoop s BitStream.fresh n

/-- Translation of `writeSignedByte(n)`: write the sign bit, replace `n` by
`Math.abs(n)` and run the byte-writing loop for only 7 iterations (the source
duplicates the `writeByte` loop body verbatim with bound 7). -/
def BitStream.writeSignedByte (s : BitStream) (n : Int) : BRes BitStream := do
  let s2 ← s.writeBit (decide (n < 0))
  s2.writeByteLoop n.natAbs 7

/-- Translation of `readSignedChar()`: one sign bit (tested for JS truthiness,
i.e. nonzero) followed by `readBits(7)`, negated if the sign bit was set. -/
def BitStream.readSignedChar (s : BitStream) : BRes (Int × BitStream) := do
  let (b, s2) ← s.readBit
  if b ≠ 0 then
    let (v, s3) ← s2.readBits 7
    .ok (-(v : Int), s3)
  else
    let (v, s3) ← s2.readBits 7
    .ok ((v : Int), s3)

/-- The `mask` array local to `writeCompressed` (the model only ever evaluates
indices `0..3`, where the JS numbers are exact 32-bit masks; for indices `4..7`
the source values would be truncated by the implicit `ToInt32` conversion of
`&`, but no claim exercises sizes above 4). -/
def compressedMask : List Nat :=
  [0xFF, 0xFF00, 0xFF0000, 0xFF000000,
   0xFF00000000, 0xFF0000000000, 0xFF000000000000, 0xFF00000000000000]

/-- Translation of the byte-emitting loop of `writeCompressed`:
`for (i = 0; i < stop; i++) writeByte((data & mask[i]) >> i*8)`.  The argument
`count` is the number of remaining iterations.  For `i = 3` the JS shift
`>> 24` sign-extends, but `writeByte` only consumes the low byte of its
argument, which agrees with the `Nat` translation. -/
def BitStream.writeCompressedBytes (s : BitStream) (dataV i : Nat) :
    Nat → BRes BitStream
  | 0 => .ok s
  | count + 1 => do
    let s2 ← s.writeByte ((dataV &&& compressedMask.getD i 0) >>> (i * 8))
    BitStream.writeCompressedBytes s2 dataV (i + 1) count

/-- Translation of the main loop of `writeCompressed` (counter = `currentByte`).
After the loop falls through (`currentByte = 0`) the source writes the nibble
flag and either 4 bits (`data & 0xF0 >> 4`, which by JS precedence is
`data & (0xF0 >> 4) = data & 0x0F`) or the full low byte. -/
def BitStream.writeCompressedLoop (s : BitStream) (dataV : Nat) :
    Nat → BRes BitStream
  | 0 => do
    let zero := dataV &&& 0xF0 == 0
    let s2 ← s.writeBit zero
    if zero then
      s2.writeBits (dataV &&& (0xF0 >>> 4)) 4
    else
      s2.writeByte (dataV &&& 0xFF)
  | cb + 1 => do
    let zero := dataV &&& compressedMask.getD (cb + 1) 0 == 0
    let s2 ← s.writeBit zero
    if !zero then
      BitStream.writeCompressedBytes s2 dataV 0 (cb + 1 + 1)
    else
      BitStream.writeCompressedLoop s2 dataV cb

/-- Translation of `writeCompressed(data, size)`. -/
def BitStream.writeCompressed (s : BitStream) (dataV size : Nat) : BRes BitStream :=
  BitStream.writeCompressedLoop s dataV (size - 1)

/-- Helper loop of `readCompressed`: write `count` zero bytes to `ret`. -/
def BitStream.readCompressedZeros (ret : BitStream) : Nat → BRes BitStream
  | 0 => .ok ret
  | count + 1 => do
    let ret2 ← ret.writeByte 0
    BitStream.readCompressedZeros ret2 count

/-- Helper loop of `readCompressed`: read `count` literal bytes from the source
stream and append them to `ret`. -/
def BitStream.readCompressedLiterals (s ret : BitStream) :
    Nat → BRes (BitStream × BitStream)
  | 0 => .ok (ret, s)
  | count + 1 => do
    let (b, s2) ← s.readByte
    let ret2 ← ret.writeByte b
    BitStream.readCompressedLiterals s2 ret2 count

/-- Translation of the main loop of `readCompressed` (counter = `currentByte`).
On a zero flag bit at `currentByte = cb` the source first writes
`size - cb - 1` zero bytes to `ret` and then copies `cb + 1` literal bytes.
After the loop falls through it reads one more flag bit; on a set flag it
writes `readBits(4) << 4 && 0xF0` — a JS logical AND, which evaluates to `0`
when `readBits(4) << 4` is `0` and to `0xF0` otherwise — else a literal byte;
in both fall-through cases `size - 1` trailing zero bytes follow. -/
def BitStream.readCompressedLoop (s ret : BitStream) (size : Nat) :
    Nat → BRes (BitStream × BitStream)
  | 0 => do
    let (b, s2) ← s.readBit
    if b ≠ 0 then
      let (x, s3) ← s2.readBits 4
      let ret2 ← ret.writeByte (if x <<< 4 == 0 then x <<< 4 else 0xF0)
      let ret3 ← BitStream.readCompressedZeros ret2 (size - 1)
      .ok (ret3, s3)
    else
      let (x, s3) ← s2.readByte
      let ret2 ← ret.writeByte x
      let ret3 ← BitStream.readCompressedZeros ret2 (size - 1)
      .ok (ret3, s3)
  | cb + 1 => do
    let (b, s2) ← s.readBit
    if b ≠ 0 then
      BitStream.readCompressedLoop s2 ret size cb
    else
      let ret2 ← BitStream.readCompressedZeros ret (size - (cb + 1) - 1)
      BitStream.readCompressedLiterals s2 ret2 (cb + 1 + 1)

/-- Translation of `readCompressed(size)`: the result stream starts fresh. -/
def BitStream.readCompressed (s : BitStream) (size : Nat) :
    BRes (BitStream × BitStream) :=
  BitStream.readCompressedLoop s BitStream.fresh size (size - 1)

/-- Helper loop of `writeString`: write one byte per character code. -/
def BitStream.writeStringBytes (s : BitStream) : List Nat → BRes BitStream
  | [] => .ok s
  | c :: cs => do
    let s2 ← s.writeByte c
    s2.writeStringBytes cs

/-- Translation of `writeString(string, size)` (strings are modelled as their
lists of UTF-16 unit values): pad the string with NUL characters up to `size`,
then write one byte per character of the padded string.  The `size` parameter
defaults to 33 in the source; it is passed explicitly here. -/
def BitStream.writeString (s : BitStream) (str : List Nat) (size : Nat) :
    BRes BitStream :=
  s.writeStringBytes (str ++ List.replicate (size - str.length) 0)

/-- Translation of `writeFloat(n)`.  JS floats are modelled as exact rationals:
for the inputs of interest every source operation is exact dyadic arithmetic
(`Math.abs`, division by `Math.pow(2, exponent)`, subtraction of 1, division by
the constant `1.1920928955078125e-7 = 2^-23`), `Math.floor(Math.log2 |n|)` is
`Int.log 2 |n|` and `Math.ceil` is `Int.ceil`.  The biased exponent and the
mantissa are non-negative whenever `n ≠ 0` and `Int.log 2 |n| ≥ -127`, so the
`Int.toNat` coercions below are lossless there. -/
def BitStream.writeFloat (s : BitStream) (n : ℚ) : BRes BitStream :=
  let sign := decide (n < 0)
  let exponent : ℤ := Int.log 2 |n|
  let mantissa : ℤ := ⌈(|n| / (2 : ℚ) ^ exponent - 1) / ((1 : ℚ) / 8388608)⌉
  let e : Nat := (exponent + 127).toNat
  let m : Nat := mantissa.toNat
  do
    let s2 ← s.writeByte (m &&& 0xff)
    let s3 ← s2.writeByte ((m &&& 0xff00) >>> 8)
    let s4 ← s3.writeBit ((e &&& 0x01) == 1)
    let s5 ← s4.writeBits ((m &&& 0x7f0000) >>> 16) 7
    let s6 ← s5.writeBit sign
    s6.writeBits ((e &&& 0xfe) >>> 1) 7

/-! ## Specification layer: bit lists

A stream built from `BitStream.fresh` by write operations corresponds to the
list of booleans written so far (most significant bit of byte 0 first), plus a
count of bits consumed by the read cursor.  `SInv w r s` pins every field of
such a state.
-/

/-- Numeric value of one bit. -/
def bitVal (b : Bool) : Nat := if b then 1 else 0

/-- Value accumulated by the `readBits` loop over a bit list, starting from
accumulator `a` (most significant bit first). -/
def valOfBitsAux (a : Nat) (l : List Bool) : Nat :=
  l.foldl (fun acc b => 2 * acc + bitVal b) a

/-- Value of a bit list, most significant bit first. -/
def valOfBits (l : List Bool) : Nat := valOfBitsAux 0 l

/-- The `n` bits of `w` starting at position `r` (positions past the end read
as `false`, matching the zero padding of a partially written final byte). -/
def sliceBits (w : List Bool) (r n : Nat) : List Bool :=
  (List.range n).map (fun i => w.getD (r + i) false)

/-- Invariant tying a stream state to the list `w` of bits written to it (from
a fresh stream) and the number `r` of bits consumed by the read cursor: byte
count and both cursors are determined by `w.length` and `r`, bit `k` of the
buffer is `w.getD k false` (so the tail of the last byte is zero padding), and
every stored byte is below 256. -/
def SInv (w : List Bool) (r : Nat) (s : BitStream) : Prop :=
  s.byteCount = (w.length + 7) / 8 ∧
  s.data.length = (w.length + 7) / 8 ∧
  s.writeBytePosition = w.length / 8 ∧
  s.writeBitPosition = 7 - w.length % 8 ∧
  s.readBytePosition = r / 8 ∧
  s.readBitPosition = 7 - r % 8 ∧
  (∀ k, k < 8 * ((w.length + 7) / 8) →
    (s.data.getD (k / 8) 0).testBit (7 - k % 8) = w.getD k false) ∧
  (∀ b ∈ s.data, b < 256)

/-- Bits emitted by `i` iterations of the `writeByte` loop body on `n`. -/
def byteLoopBits (n : Nat) : Nat → List Bool
  | 0 => []
  | i + 1 => (((n &&& 0x80) >>> 7) == 1) :: byteLoopBits ((n <<< 1) &&& 0xFF) i

/-- Bits emitted by `writeBits n b` (bits `b-1 .. 0` of `n`, most significant
first). -/
def writeBitsBits (n : Nat) : Nat → List Bool
  | 0 => []
  | i + 1 => (((n >>> i) &&& 0x01) == 1) :: writeBitsBits n i

/-! ### Harness definitions used by the claim statements -/

/-- Write a list of booleans with successive `writeBit` calls. -/
def BitStream.writeBools (s : BitStream) : List Bool → BRes BitStream
  | [] => .ok s
  | b :: bs => do
    let s2 ← s.writeBit b
    s2.writeBools bs

/-- Read `n` bits with successive `readBit` calls, collecting the results. -/
def BitStream.readN (s : BitStream) : Nat → BRes (List Nat × BitStream)
  | 0 => .ok ([], s)
  | n + 1 => do
    let (bit, s2) ← s.readBit
    let (rest, s3) ← s2.readN n
    .ok (bit :: rest, s3)

/-- Little-endian value of a byte list. -/
def leValue (l : List Nat) : Nat := l.foldr (fun b acc => b + 256 * acc) 0

/-- Write bits `bs` on a fresh stream, then read them back with `readBit`. -/
def bitRoundTrip (bs : List Bool) : BRes (List Nat) := do
  let s ← BitStream.fresh.writeBools bs
  let (vals, _) ← s.readN bs.length
  pure vals

/-- Value of `writeCompressed` followed by `readCompressed` on a fresh stream,
reading the result little-endian. -/
def compressedRoundTrip (size v : Nat) : BRes Nat := do
  let s ← BitStream.fresh.writeCompressed v size
  let (ret, _) ← s.readCompressed size
  pure (leValue ret.data)

/-- Value of `writeSignedByte` followed by `readSignedChar` on a fresh stream. -/
def signedByteRoundTrip (n : Int) : BRes Int := do
  let s ← BitStream.fresh.writeSignedByte n
  let (v, _) ← s.readSignedChar
  pure v

/-- Buffer contents after `writeFloat` on a fresh stream. -/
def writeFloatBytes (q : ℚ) : BRes (List Nat) := do
  let s ← BitStream.fresh.writeFloat q
  pure s.data

/-- A stream holding the given bytes, built by writing them on a fresh stream. -/
def mkByteStream (vs : List Nat) : BRes BitStream :=
  BitStream.fresh.writeStringBytes vs

/-- Whether a result is a thrown exception. -/
def isError {α : Type} : BRes α → Bool
  | .error _ => true
  | .ok _ => false

/-- Decidable equality of results, so that concrete runs can be checked by
`decide`. -/
instance exceptDecEq {ε α : Type} [DecidableEq ε] [DecidableEq α] :
    DecidableEq (Except ε α)
  | Except.ok a, Except.ok b =>
    if h : a = b then .isTrue (congrArg Except.ok h)
    else .isFalse fun hc => h (Except.ok.inj hc)
  | Except.ok _, Except.error _ => .isFalse fun hc => Except.noConfusion hc
  | Except.error _, Except.ok _ => .isFalse fun hc => Except.noConfusion hc
  | Except.error e, Except.error f =>
    if h : e = f then .isTrue (congrArg Except.error h)
    else .isFalse fun hc => h (Except.error.inj hc)

/-- Byte `i` (little-endian) of the number `v`. -/
def byteAt (v i : Nat) : Nat := v / 2 ^ (8 * i) % 256

/-- Result of `allRead()` (and the value of `bits()`) after writing `bs` and
reading back `k` bits on a fresh stream. -/
def allReadAfter (bs : List Bool) (k : Nat) : BRes (Bool × Nat) := do
  let s ← BitStream.fresh.writeBools bs
  let (_, s2) ← s.readN k
  pure (s2.allRead, s2.bits)

/-- Buffer and length after `writeString` on a fresh stream. -/
def writeStringData (cs : List Nat) (size : Nat) : BRes (List Nat) := do
  let s ← BitStream.fresh.writeString cs size
  pure s.data

/-- Buffer of the stream returned by `readBytes n` on a stream holding the
given bytes. -/
def readBytesData (vs : List Nat) (n : Nat) : BRes (List Nat) := do
  let s ← mkByteStream vs
  let (ret, _) ← s.readBytes n
  pure ret.data

/-- The biased exponent local `e` of `writeFloat` (source: `exponent + 127`
with `exponent = Math.floor(Math.log2(Math.abs(n)))`). -/
def floatE (q : ℚ) : Nat := (Int.log 2 |q| + 127).toNat

/-- The mantissa local `m` of `writeFloat` (source: `Math.ceil((Math.abs(n) /
Math.pow(2, exponent) - 1) / 1.1920928955078125e-7)`). -/
def floatM (q : ℚ) : Nat :=
  (⌈(|q| / (2 : ℚ) ^ (Int.log 2 |q|) - 1) / ((1 : ℚ) / 8388608)⌉).toNat

theorem SInv_fresh : SInv [] 0 BitStream.fresh := by
  refine ⟨rfl, rfl, rfl, rfl, rfl, rfl, ?_, ?_⟩ <;> simp [BitStream.fresh, BitStream.new]

/-! ### Bit-twiddling helpers -/

theorem testBit_set_bit (byte : Nat) (b : Bool) (p i : Nat) :
    (byte ||| ((if b then 1 else 0) <<< p)).testBit i =
      (byte.testBit i || (b && decide (p = i))) := by
  cases b
  · simp [Nat.zero_shiftLeft]
  · rw [if_pos rfl, Nat.one_shiftLeft, Nat.testBit_or, Nat.testBit_two_pow]
    simp

theorem and_shift_extract (byte p : Nat) :
    (byte &&& ((1 : Nat) <<< p)) >>> p = bitVal (byte.testBit p) := by
  rw [Nat.one_shiftLeft, Nat.and_two_pow, Nat.shiftRight_eq_div_pow,
    Nat.mul_div_cancel _ (Nat.pos_pow_of_pos p (by norm_num))]
  cases byte.testBit p <;> rfl

theorem or_bit_lt (byte : Nat) (b : Bool) (p : Nat) (hb : byte < 256) (hp : p ≤ 7) :
    byte ||| ((if b then 1 else 0) <<< p) < 256 := by
  have : ((if b then 1 else 0) <<< p) < 256 := by
    rw [Nat.shiftLeft_eq]
    have h1 : (if b then 1 else 0) ≤ 1 := by cases b <;> simp
    calc (if b then 1 else 0) * 2 ^ p ≤ 1 * 2 ^ 7 :=
          Nat.mul_le_mul h1 (Nat.pow_le_pow_right (by norm_num) hp)
      _ < 256 := by norm_num
  exact Nat.or_lt_two_pow (n := 8) hb this

/-! ### List helpers -/

theorem set_get_self {α : Type} [DecidableEq α] (l : List α) (i : Nat) (v : α)
    (h : l[i]? = some v) : l.set i v = l := by
  apply List.ext_getElem (by simp)
  intro n h1 h2
  rw [List.getElem_set]
  split
  · next heq =>
    subst heq
    rw [List.getElem?_eq_getElem h2] at h
    exact (Option.some_inj.mp h).symm
  · rfl

theorem set_replicate_zero (k i : Nat) :
    (List.replicate k (0 : Nat)).set i 0 = List.replicate k 0 := by
  by_cases h : i < k
  · exact set_get_self _ _ _ (by
      rw [List.getElem?_eq_getElem (by simpa using h)]
      simp)
  · rw [List.set_eq_of_length_le (by simpa using Nat.le_of_not_lt h)]

theorem bufferCopy_alloc_of_le (d : List Nat) (c : Nat) (h : d.length ≤ c) :
    bufferCopy d (bufferAlloc c) = d ++ List.replicate (c - d.length) 0 := by
  unfold bufferCopy bufferAlloc
  rw [List.length_replicate, List.take_of_length_le h, List.drop_replicate,
    min_eq_left h]

/-! ### Characterization of the two primitive operations -/

theorem writeBit_eq_realloc (s : BitStream) (b : Bool)
    (h7 : s.writeBitPosition = 7)
    (hL : s.data.length ≤ s.writeBytePosition) :
    s.writeBit b = .ok { s with
      data := s.data ++ (List.replicate (s.writeBytePosition - s.data.length) 0
              ++ [(if b then 1 else 0) <<< 7]),
      byteCount := s.writeBytePosition + 1,
      writeBitPosition := 6 } := by
  have hgrow : (bufferCopy s.data (bufferAlloc (s.writeBytePosition + 1))).set
      s.writeBytePosition 0 =
      s.data ++ List.replicate (s.writeBytePosition + 1 - s.data.length) 0 := by
    rw [bufferCopy_alloc_of_le _ _ (by omega), List.set_append,
      if_neg (by omega), set_replicate_zero]
  have hget : (s.data ++ List.replicate (s.writeBytePosition + 1 - s.data.length)
      (0 : Nat))[s.writeBytePosition]? = some 0 := by
    rw [List.getElem?_append_right hL]
    rw [List.getElem?_eq_getElem (by simp; omega)]
    simp
  simp only [BitStream.writeBit]
  rw [if_pos h7]
  simp only [hgrow, hget]
  rw [if_neg (by simp only [h7]; norm_num)]
  simp only [h7, Nat.zero_or]
  congr 2
  have h1 : s.writeBytePosition + 1 - s.data.length =
      s.writeBytePosition - s.data.length + 1 := by omega
  rw [h1, List.replicate_succ', ← List.append_assoc, List.set_append,
    if_neg (by simp; omega)]
  have h2 : s.writeBytePosition - (s.data ++ List.replicate
      (s.writeBytePosition - s.data.length) (0 : Nat)).length = 0 := by
    simp
    omega
  rw [h2, List.append_assoc]
  rfl

theorem writeBit_eq_mid (s : BitStream) (b : Bool)
    (h7 : s.writeBitPosition ≠ 7) (h0 : s.writeBitPosition ≠ 0)
    (hin : s.writeBytePosition < s.data.length) :
    s.writeBit b = .ok { s with
      data := s.data.set s.writeBytePosition
        ((s.data.getD s.writeBytePosition 0) |||
          ((if b then 1 else 0) <<< s.writeBitPosition)),
      writeBitPosition := s.writeBitPosition - 1 } := by
  simp only [BitStream.writeBit]
  rw [if_neg h7, List.getElem?_eq_getElem hin]
  simp only [List.getD_eq_getElem _ _ hin]
  rw [if_neg h0]

theorem writeBit_eq_last (s : BitStream) (b : Bool)
    (h7 : s.writeBitPosition ≠ 7) (h0 : s.writeBitPosition = 0)
    (hin : s.writeBytePosition < s.data.length) :
    s.writeBit b = .ok { s with
      data := s.data.set s.writeBytePosition
        ((s.data.getD s.writeBytePosition 0) |||
          ((if b then 1 else 0) <<< s.writeBitPosition)),
      writeBitPosition := 7,
      writeBytePosition := s.writeBytePosition + 1 } := by
  simp only [BitStream.writeBit]
  rw [if_neg h7, List.getElem?_eq_getElem hin]
  simp only [List.getD_eq_getElem _ _ hin]
  rw [if_pos h0]

theorem readBit_eq_inrange (s : BitStream)
    (hbc : s.readBytePosition < s.byteCount)
    (hin : s.readBytePosition < s.data.length) :
    s.readBit = .ok
      (bitVal ((s.data.getD s.readBytePosition 0).testBit s.readBitPosition),
      if s.readBitPosition = 0 then
        { s with readBitPosition := 7, readBytePosition := s.readBytePosition + 1 }
      else { s with readBitPosition := s.readBitPosition - 1 }) := by
  simp only [BitStream.readBit, if_neg (Nat.not_le_of_lt hbc)]
  simp only [bind, Except.bind, pure, Except.pure]
  rw [List.getElem?_eq_getElem hin]
  simp only [List.getD_eq_getElem _ _ hin, and_shift_extract]
  split
  · rfl
  · rfl

/-! ### Invariant preservation -/

theorem writeBit_step {w : List Bool} {r : Nat} {s : BitStream}
    (h : SInv w r s) (b : Bool) :
    ∃ s2, s.writeBit b = .ok s2 ∧ SInv (w ++ [b]) r s2 := by
  obtain ⟨hbc, hdl, hwby, hwbi, hrby, hrbi, hbit, hlt⟩ := h
  have hx256 : ((if b then 1 else 0) <<< 7 : Nat) < 256 := by
    cases b <;> decide
  by_cases h8 : w.length % 8 = 0
  · -- the write cursor is at bit 7: the reallocation branch runs
    have hL : s.data.length ≤ s.writeBytePosition := by omega
    have hzero : s.writeBytePosition - s.data.length = 0 := by omega
    refine ⟨_, writeBit_eq_realloc s b (by omega) hL, ?_⟩
    simp only [hzero, List.replicate_zero, List.nil_append]
    refine ⟨?_, ?_, ?_, ?_, ?_, ?_, ?_, ?_⟩
    · simp only [List.length_append, List.length_singleton]
      omega
    · simp only [List.length_append, List.length_singleton]
      omega
    · simp only [List.length_append, List.length_singleton]
      omega
    · simp only [List.length_append, List.length_singleton]
      omega
    · exact hrby
    · exact hrbi
    · intro k hk
      simp only [List.length_append, List.length_singleton] at hk ⊢
      have hkdiv : k / 8 ≤ w.length / 8 := by omega
      rcases Nat.lt_or_ge (k / 8) s.data.length with hlt2 | hge2
      · rw [List.getD_append _ _ _ _ hlt2]
        have hklt : k < w.length := by omega
        rw [List.getD_append _ _ _ _ (by omega)]
        exact hbit k (by omega)
      · rw [List.getD_append_right _ _ _ _ hge2]
        have h00 : k / 8 - s.data.length = 0 := by omega
        rw [h00]
        simp only [List.getD_cons_zero]
        rw [← Nat.zero_or ((if b then 1 else 0) <<< 7), testBit_set_bit,
          Nat.zero_testBit, Bool.false_or]
        by_cases hk8 : k % 8 = 0
        · have hkeq : k = w.length := by omega
          subst hkeq
          rw [List.getD_append_right _ _ _ _ (le_refl _)]
          simp only [Nat.sub_self, List.getD_cons_zero, hk8, Nat.sub_zero]
          simp
        · have hkgt : w.length + 1 ≤ k := by omega
          rw [List.getD_eq_default _ _ (by simp; omega)]
          have hne : ¬(7 = 7 - k % 8) := by omega
          simp [hne]
    · intro y hy
      rcases List.mem_append.mp hy with hy1 | hy2
      · exact hlt y hy1
      · rw [List.mem_singleton.mp hy2]
        exact hx256
  · -- the write cursor is inside a byte that already exists
    have hj1 : 1 ≤ w.length % 8 := by omega
    have hj7 : w.length % 8 ≤ 7 := by omega
    have hin : s.writeBytePosition < s.data.length := by omega
    have h7 : s.writeBitPosition ≠ 7 := by omega
    have hbyte : s.data.getD s.writeBytePosition 0 < 256 := by
      rw [List.getD_eq_getElem _ _ hin]
      exact hlt _ (List.getElem_mem hin)
    have hbitfact : ∀ k, k < 8 * ((w.length + 1 + 7) / 8) →
        ((s.data.set s.writeBytePosition
          ((s.data.getD s.writeBytePosition 0) |||
            ((if b then 1 else 0) <<< s.writeBitPosition))).getD (k / 8) 0).testBit
          (7 - k % 8) = (w ++ [b]).getD k false := by
      intro k hk
      have hbnd : (w.length + 1 + 7) / 8 = (w.length + 7) / 8 := by omega
      rw [hbnd] at hk
      have hkdiv : k / 8 < s.data.length := by omega
      rw [List.getD_eq_getElem _ _ (by simpa using hkdiv), List.getElem_set]
      by_cases hkb : s.writeBytePosition = k / 8
      · have hoct : (s.data.getD (k / 8) 0).testBit (7 - k % 8) =
            w.getD k false := hbit k hk
        rw [if_pos hkb, testBit_set_bit, hwbi, hkb, hoct]
        by_cases hk8 : k % 8 = w.length % 8
        · have hkeq : k = w.length := by omega
          subst hkeq
          rw [List.getD_eq_default _ _ (le_refl _),
            List.getD_append_right _ _ _ _ (le_refl _)]
          simp only [Nat.sub_self, List.getD_cons_zero, Bool.false_or]
          simp
        · have hne : ¬(7 - w.length % 8 = 7 - k % 8) := by omega
          rw [decide_eq_false hne]
          simp only [Bool.and_false, Bool.or_false]
          rcases Nat.lt_or_ge k w.length with hlt3 | hge3
          · rw [List.getD_append _ _ _ _ hlt3]
          · rw [List.getD_eq_default _ _ (by omega),
              List.getD_eq_default _ _ (by simp; omega)]
      · rw [if_neg hkb]
        have hklt : k < w.length := by omega
        rw [List.getD_append _ _ _ _ (by omega),
          ← List.getD_eq_getElem _ (0 : Nat) hkdiv]
        exact hbit k hk
    have hltfact : ∀ y ∈ s.data.set s.writeBytePosition
        ((s.data.getD s.writeBytePosition 0) |||
          ((if b then 1 else 0) <<< s.writeBitPosition)), y < 256 := by
      intro y hy
      rcases List.mem_or_eq_of_mem_set hy with hy1 | hy2
      · exact hlt y hy1
      · rw [hy2]
        exact or_bit_lt _ b _ hbyte (by omega)
    by_cases hlast : w.length % 8 = 7
    · refine ⟨_, writeBit_eq_last s b h7 (by omega) hin, ?_⟩
      refine ⟨?_, ?_, ?_, ?_, hrby, hrbi, ?_, hltfact⟩
      · simp only [List.length_append, List.length_singleton]
        omega
      · simp only [List.length_set, List.length_append, List.length_singleton]
        omega
      · simp only [List.length_append, List.length_singleton]
        omega
      · simp only [List.length_append, List.length_singleton]
        omega
      · intro k hk
        simp only [List.length_append, List.length_singleton] at hk
        exact hbitfact k hk
    · refine ⟨_, writeBit_eq_mid s b h7 (by omega) hin, ?_⟩
      refine ⟨?_, ?_, ?_, ?_, hrby, hrbi, ?_, hltfact⟩
      · simp only [List.length_append, List.length_singleton]
        omega
      · simp only [List.length_set, List.length_append, List.length_singleton]
        omega
      · simp only [List.length_append, List.length_singleton]
        omega
      · simp only [List.length_append, List.length_singleton]
        omega
      · intro k hk
        simp only [List.length_append, List.length_singleton] at hk
        exact hbitfact k hk

theorem readBit_step {w : List Bool} {r : Nat} {s : BitStream}
    (h : SInv w r s) (hr : r < w.length) :
    ∃ s2, s.readBit = .ok (bitVal (w.getD r false), s2) ∧ SInv w (r + 1) s2 := by
  obtain ⟨hbc, hdl, hwby, hwbi, hrby, hrbi, hbit, hlt⟩ := h
  have hrb : s.readBytePosition < s.byteCount := by omega
  have hrd : s.readBytePosition < s.data.length := by omega
  have hv : (s.data.getD s.readBytePosition 0).testBit s.readBitPosition =
      w.getD r false := by
    rw [hrby, hrbi]
    exact hbit r (by omega)
  refine ⟨_, by rw [readBit_eq_inrange s hrb hrd, hv], ?_⟩
  by_cases h0 : s.readBitPosition = 0
  · rw [if_pos h0]
    refine ⟨hbc, hdl, hwby, hwbi, ?_, ?_, hbit, hlt⟩
    · show s.readBytePosition + 1 = (r + 1) / 8
      omega
    · show (7 : Nat) = 7 - (r + 1) % 8
      omega
  · rw [if_neg h0]
    refine ⟨hbc, hdl, hwby, hwbi, ?_, ?_, hbit, hlt⟩
    · show s.readBytePosition = (r + 1) / 8
      omega
    · show s.readBitPosition - 1 = 7 - (r + 1) % 8
      omega

theorem bind_ok {α β : Type} (a : α) (f : α → BRes β) :
    (Except.ok a >>= f : BRes β) = f a := rfl

theorem pure_ok {α : Type} (a : α) : (pure a : BRes α) = Except.ok a := rfl

/-! ### Pure descriptions of the emitted bit sequences -/

theorem byteLoopBits_length (n i : Nat) : (byteLoopBits n i).length = i := by
  induction i generalizing n with
  | zero => rfl
  | succ i ih => simp [byteLoopBits, ih]

theorem writeBitsBits_length (n i : Nat) : (writeBitsBits n i).length = i := by
  induction i with
  | zero => rfl
  | succ i ih => simp [writeBitsBits, ih]

theorem topbit_eq (n : Nat) : (((n &&& 0x80) >>> 7) == 1) = n.testBit 7 := by
  have h : (0x80 : Nat) = 2 ^ 7 := rfl
  rw [h, Nat.and_two_pow, Nat.shiftRight_eq_div_pow,
    Nat.mul_div_cancel _ (by norm_num : (0 : Nat) < 2 ^ 7)]
  cases n.testBit 7 <;> rfl

theorem lowbit_eq (n i : Nat) : (((n >>> i) &&& 0x01) == 1) = n.testBit i := by
  have h : (0x01 : Nat) = 2 ^ 0 := rfl
  rw [h, Nat.and_two_pow]
  have h2 : (n >>> i).testBit 0 = n.testBit i := by
    rw [Nat.testBit_shiftRight, Nat.add_zero]
  rw [h2]
  cases n.testBit i <;> rfl

theorem byteLoopBits_mod (n i : Nat) :
    byteLoopBits n i = byteLoopBits (n % 256) i := by
  cases i with
  | zero => rfl
  | succ i =>
    simp only [byteLoopBits]
    congr 1
    · rw [topbit_eq, topbit_eq]
      have h : (256 : Nat) = 2 ^ 8 := rfl
      rw [h, Nat.testBit_mod_two_pow]
      simp
    · congr 1
      have h255 : (0xFF : Nat) = 2 ^ 8 - 1 := rfl
      rw [h255, Nat.and_pow_two_sub_one_eq_mod, Nat.and_pow_two_sub_one_eq_mod,
        Nat.shiftLeft_eq, Nat.shiftLeft_eq]
      norm_num

set_option maxRecDepth 4000 in
theorem valOfBits_byteLoopBits (n : Nat) :
    valOfBits (byteLoopBits n 8) = n % 256 := by
  rw [byteLoopBits_mod]
  have h : ∀ m, m < 256 → valOfBits (byteLoopBits m 8) = m := by decide
  exact h _ (Nat.mod_lt _ (by norm_num))

theorem writeBitsBits_mod (n k : Nat) : ∀ i, i ≤ k →
    writeBitsBits n i = writeBitsBits (n % 2 ^ k) i := by
  intro i
  induction i with
  | zero => intro _; rfl
  | succ i ih =>
    intro hik
    simp only [writeBitsBits]
    congr 1
    · rw [lowbit_eq, lowbit_eq, Nat.testBit_mod_two_pow,
        decide_eq_true (by omega : i < k)]
      simp
    · exact ih (by omega)

set_option maxRecDepth 4000 in
theorem valOfBits_writeBitsBits4 (n : Nat) :
    valOfBits (writeBitsBits n 4) = n % 16 := by
  rw [writeBitsBits_mod n 4 4 (le_refl 4)]
  have h : ∀ m, m < 16 → valOfBits (writeBitsBits m 4) = m := by decide
  have h16 : (2 : Nat) ^ 4 = 16 := by norm_num
  rw [h16]
  exact h _ (Nat.mod_lt _ (by norm_num))

set_option maxRecDepth 4000 in
theorem valOfBits_writeBitsBits7 (n : Nat) :
    valOfBits (writeBitsBits n 7) = n % 128 := by
  rw [writeBitsBits_mod n 7 7 (le_refl 7)]
  have h : ∀ m, m < 128 → valOfBits (writeBitsBits m 7) = m := by decide
  have h128 : (2 : Nat) ^ 7 = 128 := by norm_num
  rw [h128]
  exact h _ (Nat.mod_lt _ (by norm_num))

/-! ### Step lemmas for the composite operations -/

theorem valOfBitsAux_cons (a : Nat) (b : Bool) (l : List Bool) :
    valOfBitsAux a (b :: l) = valOfBitsAux (2 * a + bitVal b) l := rfl

theorem shiftor_bit (a : Nat) (b : Bool) :
    (a <<< 1) ||| bitVal b = 2 * a + bitVal b := by
  cases b
  · simp [bitVal, Nat.shiftLeft_eq, Nat.mul_comm]
  · show (a <<< 1) ||| 1 = 2 * a + 1
    apply Nat.eq_of_testBit_eq
    intro i
    cases i with
    | zero =>
      rw [Nat.testBit_or]
      simp only [Nat.testBit_zero, Nat.shiftLeft_eq]
      have h1 : a * 2 % 2 = 0 := by omega
      have h2 : (2 * a + 1) % 2 = 1 := by omega
      simp [h1, h2]
    | succ i =>
      rw [Nat.testBit_or, Nat.testBit_succ, Nat.testBit_succ, Nat.testBit_succ]
      have h1 : a <<< 1 / 2 = a := by rw [Nat.shiftLeft_eq]; omega
      have h2 : (2 * a + 1) / 2 = a := by omega
      rw [h1, h2]
      norm_num [Nat.zero_testBit]

theorem sliceBits_zero (w : List Bool) (r : Nat) : sliceBits w r 0 = [] := rfl

theorem sliceBits_succ (w : List Bool) (r n : Nat) :
    sliceBits w r (n + 1) = w.getD r false :: sliceBits w (r + 1) n := by
  unfold sliceBits
  rw [List.range_succ_eq_map, List.map_cons, List.map_map]
  rw [Nat.add_zero]
  congr 1
  apply List.map_congr_left
  intro i _
  show w.getD (r + Nat.succ i) false = w.getD (r + 1 + i) false
  congr 1
  omega

theorem sliceBits_self (c : List Bool) : sliceBits c 0 c.length = c := by
  apply List.ext_getElem
  · simp [sliceBits]
  · intro i h1 h2
    simp only [sliceBits, List.getElem_map, List.getElem_range, Nat.zero_add]
    rw [List.getD_eq_getElem _ _ h2]

theorem sliceBits_append_left (c q : List Bool) (r n : Nat)
    (h : r + n ≤ c.length) :
    sliceBits (c ++ q) r n = sliceBits c r n := by
  unfold sliceBits
  have hfun : ∀ i ∈ List.range n,
      (c ++ q).getD (r + i) false = c.getD (r + i) false := by
    intro i hi
    rw [List.mem_range] at hi
    exact List.getD_append _ _ _ _ (by omega)
  exact List.map_congr_left hfun

theorem sliceBits_shift (c q : List Bool) (t n : Nat) :
    sliceBits (c ++ q) (c.length + t) n = sliceBits q t n := by
  unfold sliceBits
  apply List.map_congr_left
  intro i _
  rw [List.getD_append_right _ _ _ _ (by omega)]
  congr 1
  omega

theorem writeByteLoop_step : ∀ i {n : Nat} {w : List Bool} {r : Nat}
    {s : BitStream}, SInv w r s →
    ∃ s2, s.writeByteLoop n i = .ok s2 ∧ SInv (w ++ byteLoopBits n i) r s2 := by
  intro i
  induction i with
  | zero =>
    intro n w r s h
    exact ⟨s, rfl, by simpa [byteLoopBits] using h⟩
  | succ i ih =>
    intro n w r s h
    obtain ⟨s2, hw, h2⟩ := writeBit_step h (((n &&& 0x80) >>> 7) == 1)
    obtain ⟨s3, hw3, h3⟩ := ih (n := (n <<< 1) &&& 0xFF) h2
    refine ⟨s3, ?_, ?_⟩
    · simp only [BitStream.writeByteLoop]
      rw [hw, bind_ok, hw3]
    · simpa [byteLoopBits, List.append_assoc] using h3

theorem writeByte_step {w : List Bool} {r : Nat} {s : BitStream}
    (h : SInv w r s) (n : Nat) :
    ∃ s2, s.writeByte n = .ok s2 ∧ SInv (w ++ byteLoopBits n 8) r s2 :=
  writeByteLoop_step 8 h

theorem writeBits_step : ∀ i {n : Nat} {w : List Bool} {r : Nat}
    {s : BitStream}, SInv w r s →
    ∃ s2, s.writeBits n i = .ok s2 ∧ SInv (w ++ writeBitsBits n i) r s2 := by
  intro i
  induction i with
  | zero =>
    intro n w r s h
    exact ⟨s, rfl, by simpa [writeBitsBits] using h⟩
  | succ i ih =>
    intro n w r s h
    obtain ⟨s2, hw, h2⟩ := writeBit_step h (((n >>> i) &&& 0x01) == 1)
    obtain ⟨s3, hw3, h3⟩ := ih (n := n) h2
    refine ⟨s3, ?_, ?_⟩
    · simp only [BitStream.writeBits]
      rw [hw, bind_ok, hw3]
    · simpa [writeBitsBits, List.append_assoc] using h3

theorem writeBools_step : ∀ (bs : List Bool) {w : List Bool} {r : Nat}
    {s : BitStream}, SInv w r s →
    ∃ s2, s.writeBools bs = .ok s2 ∧ SInv (w ++ bs) r s2 := by
  intro bs
  induction bs with
  | nil =>
    intro w r s h
    exact ⟨s, rfl, by simpa using h⟩
  | cons b bs ih =>
    intro w r s h
    obtain ⟨s2, hw, h2⟩ := writeBit_step h b
    obtain ⟨s3, hw3, h3⟩ := ih h2
    refine ⟨s3, ?_, ?_⟩
    · simp only [BitStream.writeBools]
      rw [hw, bind_ok, hw3]
    · simpa [List.append_assoc] using h3

theorem readBitsLoop_step : ∀ n {a : Nat} {w : List Bool} {r : Nat}
    {s : BitStream}, SInv w r s → r + n ≤ w.length →
    ∃ s2, s.readBitsLoop a n = .ok (valOfBitsAux a (sliceBits w r n), s2) ∧
      SInv w (r + n) s2 := by
  intro n
  induction n with
  | zero =>
    intro a w r s h _
    exact ⟨s, rfl, by simpa using h⟩
  | succ n ih =>
    intro a w r s h hlen
    obtain ⟨s2, hrd, h2⟩ := readBit_step h (by omega)
    obtain ⟨s3, hrd3, h3⟩ := ih h2 (by omega)
    refine ⟨s3, ?_, ?_⟩
    · simp only [BitStream.readBitsLoop]
      rw [hrd, bind_ok, hrd3, sliceBits_succ, valOfBitsAux_cons, shiftor_bit]
    · have harith : r + (n + 1) = (r + 1) + n := by omega
      rw [harith]
      exact h3

theorem readBits_step {w : List Bool} {r : Nat} {s : BitStream}
    (h : SInv w r s) (n : Nat) (hlen : r + n ≤ w.length) :
    ∃ s2, s.readBits n = .ok (valOfBits (sliceBits w r n), s2) ∧
      SInv w (r + n) s2 :=
  readBitsLoop_step n h hlen

theorem readByte_step {w : List Bool} {r : Nat} {s : BitStream}
    (h : SInv w r s) (hlen : r + 8 ≤ w.length) :
    ∃ s2, s.readByte = .ok (valOfBits (sliceBits w r 8), s2) ∧
      SInv w (r + 8) s2 :=
  readBits_step h 8 hlen

theorem readN_step : ∀ n {w : List Bool} {r : Nat} {s : BitStream},
    SInv w r s → r + n ≤ w.length →
    ∃ s2, s.readN n = .ok ((sliceBits w r n).map bitVal, s2) ∧
      SInv w (r + n) s2 := by
  intro n
  induction n with
  | zero =>
    intro w r s h _
    exact ⟨s, rfl, by simpa using h⟩
  | succ n ih =>
    intro w r s h hlen
    obtain ⟨s2, hrd, h2⟩ := readBit_step h (by omega)
    obtain ⟨s3, hrd3, h3⟩ := ih h2 (by omega)
    refine ⟨s3, ?_, ?_⟩
    · simp only [BitStream.readN]
      rw [hrd, bind_ok, hrd3, sliceBits_succ]
      rfl
    · have harith : r + (n + 1) = (r + 1) + n := by omega
      rw [harith]
      exact h3

/-! ### Byte values of the buffer of an invariant state -/

theorem bitVal_eq_toNat (b : Bool) : bitVal b = b.toNat := by cases b <;> rfl

set_option maxRecDepth 4000 in
theorem byte_decomp : ∀ b, b < 256 →
    b = 128 * (b.testBit 7).toNat + 64 * (b.testBit 6).toNat +
      32 * (b.testBit 5).toNat + 16 * (b.testBit 4).toNat +
      8 * (b.testBit 3).toNat + 4 * (b.testBit 2).toNat +
      2 * (b.testBit 1).toNat + (b.testBit 0).toNat := by decide

theorem SInv_byte {w : List Bool} {r : Nat} {s : BitStream} (h : SInv w r s)
    (j : Nat) (hj : j < s.data.length) :
    s.data.getD j 0 = valOfBits (sliceBits w (8 * j) 8) := by
  obtain ⟨hbc, hdl, hwby, hwbi, hrby, hrbi, hbit, hlt⟩ := h
  have hb256 : s.data.getD j 0 < 256 := by
    rw [List.getD_eq_getElem _ _ hj]
    exact hlt _ (List.getElem_mem hj)
  have hbits : ∀ t, t < 8 →
      (s.data.getD j 0).testBit (7 - t) = w.getD (8 * j + t) false := by
    intro t ht
    have hk := hbit (8 * j + t) (by omega)
    have h1 : (8 * j + t) / 8 = j := by omega
    have h2 : (8 * j + t) % 8 = t := by omega
    rw [h1, h2] at hk
    exact hk
  have e7 : (s.data.getD j 0).testBit 7 = w.getD (8 * j) false := by
    have := hbits 0 (by norm_num)
    simpa using this
  have e6 : (s.data.getD j 0).testBit 6 = w.getD (8 * j + 1) false := by
    have := hbits 1 (by norm_num)
    simpa using this
  have e5 : (s.data.getD j 0).testBit 5 = w.getD (8 * j + 2) false := by
    have := hbits 2 (by norm_num)
    simpa using this
  have e4 : (s.data.getD j 0).testBit 4 = w.getD (8 * j + 3) false := by
    have := hbits 3 (by norm_num)
    simpa using this
  have e3 : (s.data.getD j 0).testBit 3 = w.getD (8 * j + 4) false := by
    have := hbits 4 (by norm_num)
    simpa using this
  have e2 : (s.data.getD j 0).testBit 2 = w.getD (8 * j + 5) false := by
    have := hbits 5 (by norm_num)
    simpa using this
  have e1 : (s.data.getD j 0).testBit 1 = w.getD (8 * j + 6) false := by
    have := hbits 6 (by norm_num)
    simpa using this
  have e0 : (s.data.getD j 0).testBit 0 = w.getD (8 * j + 7) false := by
    have := hbits 7 (by norm_num)
    simpa using this
  have hr8 : List.range 8 = [0, 1, 2, 3, 4, 5, 6, 7] := rfl
  rw [byte_decomp _ hb256, e7, e6, e5, e4, e3, e2, e1, e0]
  simp only [sliceBits, hr8, List.map_cons, List.map_nil, valOfBits,
    valOfBitsAux, List.foldl_cons, List.foldl_nil, bitVal_eq_toNat,
    Nat.add_zero]
  omega

theorem writeByte_data {w : List Bool} {r : Nat} {s : BitStream}
    (h : SInv w r s) (hal : w.length % 8 = 0) (n : Nat) :
    ∃ s2, s.writeByte n = .ok s2 ∧ SInv (w ++ byteLoopBits n 8) r s2 ∧
      s2.data = s.data ++ [n % 256] := by
  obtain ⟨s2, hw, h2⟩ := writeByte_step h n
  refine ⟨s2, hw, h2, ?_⟩
  have hdl : s.data.length = (w.length + 7) / 8 := h.2.1
  have hdl2 : s2.data.length = ((w ++ byteLoopBits n 8).length + 7) / 8 := h2.2.1
  rw [List.length_append, byteLoopBits_length] at hdl2
  apply List.ext_getElem
  · rw [hdl2, List.length_append]
    simp only [List.length_singleton]
    omega
  · intro j hj1 hj2
    rw [← List.getD_eq_getElem _ (0 : Nat) hj1, SInv_byte h2 j hj1]
    rcases Nat.lt_or_ge j s.data.length with hjlt | hjge
    · rw [List.getElem_append_left hjlt]
      rw [← List.getD_eq_getElem _ (0 : Nat) hjlt, SInv_byte h j hjlt]
      rw [sliceBits_append_left _ _ _ _ (by omega)]
    · have hjeq : j = s.data.length := by
        rw [List.length_append, List.length_singleton] at hj2
        omega
      rw [List.getElem_append_right hjge]
      have h0 : j - s.data.length = 0 := by omega
      have hwl : 8 * j = w.length + 0 := by omega
      simp only [h0, hwl]
      rw [sliceBits_shift]
      have hc : sliceBits (byteLoopBits n 8) 0 8 = byteLoopBits n 8 := by
        have hs := sliceBits_self (byteLoopBits n 8)
        rwa [byteLoopBits_length] at hs
      rw [hc, valOfBits_byteLoopBits]
      rfl

theorem valOfBitsAux_eq (l : List Bool) : ∀ a,
    valOfBitsAux a l = a * 2 ^ l.length + valOfBits l := by
  induction l with
  | nil => intro a; simp [valOfBitsAux, valOfBits]
  | cons b l ih =>
    intro a
    have h1 : valOfBitsAux a (b :: l) = valOfBitsAux (2 * a + bitVal b) l := rfl
    have h2 : valOfBits (b :: l) = valOfBitsAux (2 * 0 + bitVal b) l := rfl
    rw [h1, h2, ih, ih]
    simp only [List.length_cons, pow_succ]
    ring

theorem valOfBits_lt (l : List Bool) : valOfBits l < 2 ^ l.length := by
  induction l with
  | nil => simp [valOfBits, valOfBitsAux]
  | cons b l ih =>
    rw [valOfBits, valOfBitsAux_cons, valOfBitsAux_eq]
    simp only [List.length_cons, pow_succ]
    have hb : bitVal b ≤ 1 := by cases b <;> simp [bitVal]
    have h2 : (2 : Nat) ^ l.length ≥ 1 := Nat.one_le_two_pow
    nlinarith [ih]

theorem sliceBits_chunk (c q : List Bool) (h : c.length = 8) :
    sliceBits (c ++ q) 0 8 = c := by
  rw [show (8 : Nat) = c.length from h.symm, ← sliceBits_self (c ++ q)]
  rw [sliceBits_self]
  rw [sliceBits_append_left _ _ _ _ (by omega), sliceBits_self]

theorem and_mask_shift (v m t : Nat) :
    v &&& ((2 ^ m - 1) <<< t) = (v / 2 ^ t % 2 ^ m) * 2 ^ t := by
  apply Nat.eq_of_testBit_eq
  intro i
  rw [Nat.testBit_and, Nat.testBit_shiftLeft, Nat.testBit_two_pow_sub_one]
  rw [← Nat.shiftLeft_eq, Nat.testBit_shiftLeft, Nat.testBit_mod_two_pow,
    ← Nat.shiftRight_eq_div_pow, Nat.testBit_shiftRight]
  by_cases h1 : t ≤ i
  · by_cases h2 : i - t < m
    · have e : t + (i - t) = i := by omega
      rw [e]
      simp [h1, h2, ge_iff_le]
    · simp [h1, h2, ge_iff_le]
  · simp [h1, ge_iff_le]

theorem and_byte_shift (v k : Nat) :
    (v &&& ((2 ^ 8 - 1) <<< (8 * k))) >>> (k * 8) = byteAt v k := by
  rw [and_mask_shift, Nat.shiftRight_eq_div_pow,
    show k * 8 = 8 * k from by ring,
    Nat.mul_div_cancel _ (Nat.pos_pow_of_pos _ (by norm_num))]
  rfl

theorem byteAt_lt (v k : Nat) : byteAt v k < 256 :=
  Nat.mod_lt _ (by norm_num)

/-! ### Compressed-integer round trip: the symbolic cases -/

theorem crt2_top (v : Nat) (h1 : 256 ≤ v) (h2 : v < 65536) :
    compressedRoundTrip 2 v = .ok v := by
  have hflag : (v &&& compressedMask.getD 1 0 == 0) = false := by
    rw [show compressedMask.getD 1 0 = (2 ^ 8 - 1) <<< (8 * 1) from by decide,
      and_mask_shift]
    simp only [beq_eq_false_iff_ne, ne_eq]
    norm_num
    omega
  -- the encoding writes a zero flag bit and then the two bytes of v
  obtain ⟨s1, hw1, hi1⟩ := writeBit_step SInv_fresh false
  rw [List.nil_append] at hi1
  obtain ⟨s2, hw2, hi2⟩ := writeByte_step hi1 (byteAt v 0)
  obtain ⟨s3, hw3, hi3⟩ := writeByte_step hi2 (byteAt v 1)
  unfold compressedRoundTrip
  simp only [BitStream.writeCompressed, BitStream.writeCompressedLoop,
    BitStream.writeCompressedBytes, hflag, Bool.not_false, if_true]
  have harg0 : (v &&& compressedMask.getD 0 0) >>> (0 * 8) = byteAt v 0 := by
    rw [show compressedMask.getD 0 0 = (2 ^ 8 - 1) <<< (8 * 0) from by decide,
      show ((0 : Nat) * 8) = 0 * 8 from rfl]
    exact and_byte_shift v 0
  have harg1 : (v &&& compressedMask.getD (0 + 1) 0) >>> ((0 + 1) * 8) = byteAt v 1 := by
    rw [show compressedMask.getD (0 + 1) 0 = (2 ^ 8 - 1) <<< (8 * 1) from by decide,
      show (((0 : Nat) + 1) * 8) = 1 * 8 from by norm_num]
    exact and_byte_shift v 1
  rw [harg0, harg1, hw1, bind_ok, hw2, bind_ok, hw3, bind_ok, bind_ok]
  -- decoding
  have hlen : ([false] ++ byteLoopBits (byteAt v 0) 8 ++ byteLoopBits (byteAt v 1) 8).length = 17 := by
    simp [byteLoopBits_length]
  have hg0 : ([false] ++ byteLoopBits (byteAt v 0) 8 ++ byteLoopBits (byteAt v 1) 8).getD 0 false = false := by
    simp [List.singleton_append, List.getD_cons_zero]
  have hsl0 : sliceBits ([false] ++ byteLoopBits (byteAt v 0) 8 ++ byteLoopBits (byteAt v 1) 8) 1 8 = byteLoopBits (byteAt v 0) 8 := by
    rw [List.append_assoc]
    have h := sliceBits_shift [false] (byteLoopBits (byteAt v 0) 8 ++ byteLoopBits (byteAt v 1) 8) 0 8
    simp only [List.length_singleton, Nat.add_zero] at h
    rw [h, sliceBits_chunk _ _ (byteLoopBits_length _ 8)]
  have hsl1 : sliceBits ([false] ++ byteLoopBits (byteAt v 0) 8 ++ byteLoopBits (byteAt v 1) 8) 9 8 = byteLoopBits (byteAt v 1) 8 := by
    have h := sliceBits_shift ([false] ++ byteLoopBits (byteAt v 0) 8) (byteLoopBits (byteAt v 1) 8) 0 8
    simp only [List.length_append, List.length_singleton, byteLoopBits_length, Nat.add_zero] at h
    rw [show (1 + 8 : Nat) = 9 from rfl] at h
    rw [h]
    have hs := sliceBits_self (byteLoopBits (byteAt v 1) 8)
    rwa [byteLoopBits_length] at hs
  obtain ⟨s4, hr4, hi4⟩ := readBit_step hi3 (by rw [hlen]; all_goals omega)
  rw [hg0] at hr4
  rw [show bitVal false = 0 from rfl] at hr4
  obtain ⟨s5, hr5, hi5⟩ := readByte_step hi4 (by rw [hlen]; all_goals omega)
  rw [show (0 + 1 : Nat) = 1 from rfl, hsl0, valOfBits_byteLoopBits,
    Nat.mod_eq_of_lt (byteAt_lt v 0)] at hr5
  obtain ⟨s6, hr6, hi6⟩ := readByte_step hi5 (by rw [hlen]; all_goals omega)
  rw [show (0 + 1 + 8 : Nat) = 9 from rfl, hsl1, valOfBits_byteLoopBits,
    Nat.mod_eq_of_lt (byteAt_lt v 1)] at hr6
  obtain ⟨r1, hrw1, hri1, hrd1⟩ := writeByte_data SInv_fresh (by rfl) (byteAt v 0)
  obtain ⟨r2, hrw2, hri2, hrd2⟩ := writeByte_data hri1 (by simp [byteLoopBits_length]) (byteAt v 1)
  simp only [BitStream.readCompressed, BitStream.readCompressedLoop,
    BitStream.readCompressedZeros, BitStream.readCompressedLiterals,
    show (2 - (0 + 1) - 1 : Nat) = 0 from rfl]
  rw [hr4, bind_ok]
  rw [if_neg (by norm_num : ¬((0 : Nat) ≠ 0))]
  rw [bind_ok, hr5, bind_ok, hrw1, bind_ok, hr6, bind_ok, hrw2, bind_ok, bind_ok]
  rw [hrd2, hrd1]
  simp only [leValue, BitStream.fresh, BitStream.new, List.nil_append,
    List.foldr, byteAt, pure, Except.pure]
  norm_num
  omega

theorem crt2_byte (v : Nat) (h1 : 16 ≤ v) (h2 : v < 256) :
    compressedRoundTrip 2 v = .ok v := by
  have hflag : (v &&& compressedMask.getD 1 0 == 0) = true := by
    rw [show compressedMask.getD 1 0 = (2 ^ 8 - 1) <<< (8 * 1) from by decide,
      and_mask_shift, show v / 2 ^ (8 * 1) % 2 ^ 8 * 2 ^ (8 * 1) = 0 from by
        norm_num; omega]
    rfl
  have hnib : (v &&& 0xF0 == 0) = false := by
    rw [show (0xF0 : Nat) = (2 ^ 4 - 1) <<< 4 from by decide, and_mask_shift]
    simp only [beq_eq_false_iff_ne, ne_eq]
    norm_num
    omega
  have hlow : v &&& 0xFF = v := by
    rw [show (0xFF : Nat) = 2 ^ 8 - 1 from rfl, Nat.and_pow_two_sub_one_eq_mod]
    omega
  obtain ⟨s1, hw1, hi1⟩ := writeBit_step SInv_fresh true
  rw [List.nil_append] at hi1
  obtain ⟨s2, hw2, hi2⟩ := writeBit_step hi1 false
  obtain ⟨s3, hw3, hi3⟩ := writeByte_step hi2 v
  unfold compressedRoundTrip
  simp only [BitStream.writeCompressed, BitStream.writeCompressedLoop, hflag,
    Bool.not_true, if_false, hnib, Bool.not_false, hlow]
  rw [hw1, bind_ok, hw2, bind_ok, hw3]
  rw [if_neg Bool.false_ne_true, if_neg Bool.false_ne_true, bind_ok]
  -- decoding
  have hlen : ([true] ++ [false] ++ byteLoopBits v 8).length = 10 := by
    simp [byteLoopBits_length]
  have hg0 : ([true] ++ [false] ++ byteLoopBits v 8).getD 0 false = true := by
    simp [List.singleton_append, List.getD_cons_zero]
  have hg1 : ([true] ++ [false] ++ byteLoopBits v 8).getD 1 false = false := by
    simp [List.singleton_append]
  have hsl : sliceBits ([true] ++ [false] ++ byteLoopBits v 8) 2 8 =
      byteLoopBits v 8 := by
    have h := sliceBits_shift ([true] ++ [false]) (byteLoopBits v 8) 0 8
    simp only [List.length_append, List.length_singleton, Nat.add_zero] at h
    rw [show (1 + 1 : Nat) = 2 from rfl] at h
    rw [h]
    have hs := sliceBits_self (byteLoopBits v 8)
    rwa [byteLoopBits_length] at hs
  obtain ⟨s4, hr4, hi4⟩ := readBit_step hi3 (by rw [hlen]; all_goals omega)
  rw [hg0, show bitVal true = 1 from rfl] at hr4
  obtain ⟨s5, hr5, hi5⟩ := readBit_step hi4 (by rw [hlen]; all_goals omega)
  rw [show (0 + 1 : Nat) = 1 from rfl] at hr5 hi5
  rw [hg1, show bitVal false = 0 from rfl] at hr5
  obtain ⟨s6, hr6, hi6⟩ := readByte_step hi5 (by rw [hlen]; all_goals omega)
  rw [show (1 + 1 : Nat) = 2 from rfl] at hr6 hi6
  rw [hsl, valOfBits_byteLoopBits, Nat.mod_eq_of_lt h2] at hr6
  obtain ⟨r1, hrw1, hri1, hrd1⟩ := writeByte_data SInv_fresh (by rfl) v
  obtain ⟨r2, hrw2, hri2, hrd2⟩ := writeByte_data hri1
    (by simp [byteLoopBits_length]) 0
  simp only [BitStream.readCompressed, BitStream.readCompressedLoop,
    BitStream.readCompressedZeros, BitStream.readCompressedLiterals,
    show (2 - 1 : Nat) = 1 from rfl]
  rw [hr4, bind_ok]
  rw [if_pos (by norm_num : ((1 : Nat) ≠ 0))]
  rw [hr5, bind_ok]
  rw [if_neg (by norm_num : ¬((0 : Nat) ≠ 0))]
  rw [hr6, bind_ok, hrw1, bind_ok, hrw2, bind_ok]
  simp only [bind_ok]
  show (pure (leValue r2.data) : BRes Nat) = Except.ok v
  rw [hrd2, hrd1]
  simp only [leValue, BitStream.fresh, BitStream.new, List.nil_append,
    List.foldr, pure, Except.pure, Except.ok.injEq]
  omega

theorem crt4_top (v : Nat) (h1 : 16777216 ≤ v) (h2 : v < 4294967296) :
    compressedRoundTrip 4 v = .ok v := by
  have hflag : (v &&& compressedMask.getD 3 0 == 0) = false := by
    rw [show compressedMask.getD 3 0 = (2 ^ 8 - 1) <<< (8 * 3) from by decide,
      and_mask_shift]
    simp only [beq_eq_false_iff_ne, ne_eq]
    norm_num
    omega
  obtain ⟨s1, hw1, hi1⟩ := writeBit_step SInv_fresh false
  rw [List.nil_append] at hi1
  obtain ⟨s2, hw2, hi2⟩ := writeByte_step hi1 (byteAt v 0)
  obtain ⟨s3, hw3, hi3⟩ := writeByte_step hi2 (byteAt v 1)
  obtain ⟨s4, hw4, hi4⟩ := writeByte_step hi3 (byteAt v 2)
  obtain ⟨s5, hw5, hi5⟩ := writeByte_step hi4 (byteAt v 3)
  unfold compressedRoundTrip
  simp only [BitStream.writeCompressed, BitStream.writeCompressedLoop,
    BitStream.writeCompressedBytes, hflag, Bool.not_false, if_true]
  have harg0 : (v &&& compressedMask.getD 0 0) >>> (0 * 8) = byteAt v 0 := by
    rw [show compressedMask.getD 0 0 = (2 ^ 8 - 1) <<< (8 * 0) from by decide]
    exact and_byte_shift v 0
  have harg1 : (v &&& compressedMask.getD (0 + 1) 0) >>> ((0 + 1) * 8) = byteAt v 1 := by
    rw [show compressedMask.getD (0 + 1) 0 = (2 ^ 8 - 1) <<< (8 * 1) from by decide,
      show (((0 : Nat) + 1) * 8) = 1 * 8 from by norm_num]
    exact and_byte_shift v 1
  have harg2 : (v &&& compressedMask.getD (0 + 1 + 1) 0) >>> ((0 + 1 + 1) * 8) = byteAt v 2 := by
    rw [show compressedMask.getD (0 + 1 + 1) 0 = (2 ^ 8 - 1) <<< (8 * 2) from by decide,
      show (((0 : Nat) + 1 + 1) * 8) = 2 * 8 from by norm_num]
    exact and_byte_shift v 2
  have harg3 : (v &&& compressedMask.getD (0 + 1 + 1 + 1) 0) >>> ((0 + 1 + 1 + 1) * 8) = byteAt v 3 := by
    rw [show compressedMask.getD (0 + 1 + 1 + 1) 0 = (2 ^ 8 - 1) <<< (8 * 3) from by decide,
      show (((0 : Nat) + 1 + 1 + 1) * 8) = 3 * 8 from by norm_num]
    exact and_byte_shift v 3
  rw [harg0, harg1, harg2, harg3, hw1, bind_ok, hw2, bind_ok, hw3, bind_ok,
    hw4, bind_ok, hw5, bind_ok, bind_ok]
  -- decoding
  have hlen : ([false] ++ byteLoopBits (byteAt v 0) 8 ++ byteLoopBits (byteAt v 1) 8
      ++ byteLoopBits (byteAt v 2) 8 ++ byteLoopBits (byteAt v 3) 8).length = 33 := by
    simp [byteLoopBits_length]
  have hg0 : ([false] ++ byteLoopBits (byteAt v 0) 8 ++ byteLoopBits (byteAt v 1) 8
      ++ byteLoopBits (byteAt v 2) 8 ++ byteLoopBits (byteAt v 3) 8).getD 0 false = false := by
    simp [List.singleton_append, List.getD_cons_zero]
  have hsl0 : sliceBits ([false] ++ byteLoopBits (byteAt v 0) 8 ++ byteLoopBits (byteAt v 1) 8
      ++ byteLoopBits (byteAt v 2) 8 ++ byteLoopBits (byteAt v 3) 8) 1 8 =
      byteLoopBits (byteAt v 0) 8 := by
    rw [show ([false] ++ byteLoopBits (byteAt v 0) 8 ++ byteLoopBits (byteAt v 1) 8
      ++ byteLoopBits (byteAt v 2) 8 ++ byteLoopBits (byteAt v 3) 8) =
      [false] ++ (byteLoopBits (byteAt v 0) 8 ++ (byteLoopBits (byteAt v 1) 8
      ++ (byteLoopBits (byteAt v 2) 8 ++ byteLoopBits (byteAt v 3) 8))) from by
        simp [List.append_assoc]]
    have h := sliceBits_shift [false] (byteLoopBits (byteAt v 0) 8 ++ (byteLoopBits (byteAt v 1) 8
      ++ (byteLoopBits (byteAt v 2) 8 ++ byteLoopBits (byteAt v 3) 8))) 0 8
    simp only [List.length_singleton, Nat.add_zero] at h
    rw [h, sliceBits_chunk _ _ (byteLoopBits_length _ 8)]
  have hsl1 : sliceBits ([false] ++ byteLoopBits (byteAt v 0) 8 ++ byteLoopBits (byteAt v 1) 8
      ++ byteLoopBits (byteAt v 2) 8 ++ byteLoopBits (byteAt v 3) 8) 9 8 =
      byteLoopBits (byteAt v 1) 8 := by
    rw [show ([false] ++ byteLoopBits (byteAt v 0) 8 ++ byteLoopBits (byteAt v 1) 8
      ++ byteLoopBits (byteAt v 2) 8 ++ byteLoopBits (byteAt v 3) 8) =
      ([false] ++ byteLoopBits (byteAt v 0) 8) ++ (byteLoopBits (byteAt v 1) 8
      ++ (byteLoopBits (byteAt v 2) 8 ++ byteLoopBits (byteAt v 3) 8)) from by
        simp [List.append_assoc]]
    have h := sliceBits_shift ([false] ++ byteLoopBits (byteAt v 0) 8)
      (byteLoopBits (byteAt v 1) 8 ++ (byteLoopBits (byteAt v 2) 8 ++ byteLoopBits (byteAt v 3) 8)) 0 8
    simp only [List.length_append, List.length_singleton, byteLoopBits_length,
      Nat.add_zero] at h
    rw [show (1 + 8 : Nat) = 9 from rfl] at h
    rw [h, sliceBits_chunk _ _ (byteLoopBits_length _ 8)]
  have hsl2 : sliceBits ([false] ++ byteLoopBits (byteAt v 0) 8 ++ byteLoopBits (byteAt v 1) 8
      ++ byteLoopBits (byteAt v 2) 8 ++ byteLoopBits (byteAt v 3) 8) 17 8 =
      byteLoopBits (byteAt v 2) 8 := by
    rw [show ([false] ++ byteLoopBits (byteAt v 0) 8 ++ byteLoopBits (byteAt v 1) 8
      ++ byteLoopBits (byteAt v 2) 8 ++ byteLoopBits (byteAt v 3) 8) =
      ([false] ++ byteLoopBits (byteAt v 0) 8 ++ byteLoopBits (byteAt v 1) 8) ++
      (byteLoopBits (byteAt v 2) 8 ++ byteLoopBits (byteAt v 3) 8) from by
        simp [List.append_assoc]]
    have h := sliceBits_shift ([false] ++ byteLoopBits (byteAt v 0) 8 ++ byteLoopBits (byteAt v 1) 8)
      (byteLoopBits (byteAt v 2) 8 ++ byteLoopBits (byteAt v 3) 8) 0 8
    simp only [List.length_append, List.length_singleton, byteLoopBits_length,
      Nat.add_zero] at h
    rw [show (1 + 8 + 8 : Nat) = 17 from rfl] at h
    rw [h, sliceBits_chunk _ _ (byteLoopBits_length _ 8)]
  have hsl3 : sliceBits ([false] ++ byteLoopBits (byteAt v 0) 8 ++ byteLoopBits (byteAt v 1) 8
      ++ byteLoopBits (byteAt v 2) 8 ++ byteLoopBits (byteAt v 3) 8) 25 8 =
      byteLoopBits (byteAt v 3) 8 := by
    have h := sliceBits_shift ([false] ++ byteLoopBits (byteAt v 0) 8 ++ byteLoopBits (byteAt v 1) 8
      ++ byteLoopBits (byteAt v 2) 8) (byteLoopBits (byteAt v 3) 8) 0 8
    simp only [List.length_append, List.length_singleton, byteLoopBits_length,
      Nat.add_zero] at h
    rw [show (1 + 8 + 8 + 8 : Nat) = 25 from rfl] at h
    rw [h]
    have hs := sliceBits_self (byteLoopBits (byteAt v 3) 8)
    rwa [byteLoopBits_length] at hs
  obtain ⟨t1, hr1, hj1⟩ := readBit_step hi5 (by rw [hlen]; all_goals omega)
  rw [hg0, show bitVal false = 0 from rfl] at hr1
  obtain ⟨t2, hr2, hj2⟩ := readByte_step hj1 (by rw [hlen]; all_goals omega)
  rw [show (0 + 1 : Nat) = 1 from rfl] at hr2 hj2
  rw [hsl0, valOfBits_byteLoopBits, Nat.mod_eq_of_lt (byteAt_lt v 0)] at hr2
  obtain ⟨t3, hr3, hj3⟩ := readByte_step hj2 (by rw [hlen]; all_goals omega)
  rw [show (1 + 8 : Nat) = 9 from rfl] at hr3 hj3
  rw [hsl1, valOfBits_byteLoopBits, Nat.mod_eq_of_lt (byteAt_lt v 1)] at hr3
  obtain ⟨t4, hr4, hj4⟩ := readByte_step hj3 (by rw [hlen]; all_goals omega)
  rw [show (9 + 8 : Nat) = 17 from rfl] at hr4 hj4
  rw [hsl2, valOfBits_byteLoopBits, Nat.mod_eq_of_lt (byteAt_lt v 2)] at hr4
  obtain ⟨t5, hr5, hj5⟩ := readByte_step hj4 (by rw [hlen]; all_goals omega)
  rw [show (17 + 8 : Nat) = 25 from rfl] at hr5 hj5
  rw [hsl3, valOfBits_byteLoopBits, Nat.mod_eq_of_lt (byteAt_lt v 3)] at hr5
  obtain ⟨r1, hrw1, hri1, hrd1⟩ := writeByte_data SInv_fresh (by rfl) (byteAt v 0)
  obtain ⟨r2, hrw2, hri2, hrd2⟩ := writeByte_data hri1 (by simp [byteLoopBits_length]) (byteAt v 1)
  obtain ⟨r3, hrw3, hri3, hrd3⟩ := writeByte_data hri2 (by simp [byteLoopBits_length]) (byteAt v 2)
  obtain ⟨r4, hrw4, hri4, hrd4⟩ := writeByte_data hri3 (by simp [byteLoopBits_length]) (byteAt v 3)
  simp only [BitStream.readCompressed, BitStream.readCompressedLoop,
    BitStream.readCompressedZeros, BitStream.readCompressedLiterals,
    show (4 - (2 + 1) - 1 : Nat) = 0 from rfl]
  rw [hr1, bind_ok]
  rw [if_neg (by norm_num : ¬((0 : Nat) ≠ 0))]
  rw [bind_ok, hr2, bind_ok, hrw1, bind_ok, hr3, bind_ok, hrw2, bind_ok,
    hr4, bind_ok, hrw3, bind_ok, hr5, bind_ok, hrw4, bind_ok]
  simp only [bind_ok]
  show (pure (leValue r4.data) : BRes Nat) = Except.ok v
  rw [hrd4, hrd3, hrd2, hrd1]
  simp only [leValue, BitStream.fresh, BitStream.new, List.nil_append,
    List.foldr, byteAt, pure, Except.pure, Except.ok.injEq]
  norm_num
  omega

theorem crt4_byte (v : Nat) (h1 : 16 ≤ v) (h2 : v < 256) :
    compressedRoundTrip 4 v = .ok v := by
  have hflag3 : (v &&& compressedMask.getD 3 0 == 0) = true := by
    rw [show compressedMask.getD 3 0 = (2 ^ 8 - 1) <<< (8 * 3) from by decide,
      and_mask_shift, show v / 2 ^ (8 * 3) % 2 ^ 8 * 2 ^ (8 * 3) = 0 from by
        norm_num; omega]
    rfl
  have hflag2 : (v &&& compressedMask.getD (2 + 1) 0 == 0) = true := hflag3
  have hflag2b : (v &&& compressedMask.getD 2 0 == 0) = true := by
    rw [show compressedMask.getD 2 0 = (2 ^ 8 - 1) <<< (8 * 2) from by decide,
      and_mask_shift, show v / 2 ^ (8 * 2) % 2 ^ 8 * 2 ^ (8 * 2) = 0 from by
        norm_num; omega]
    rfl
  have hflag1 : (v &&& compressedMask.getD 1 0 == 0) = true := by
    rw [show compressedMask.getD 1 0 = (2 ^ 8 - 1) <<< (8 * 1) from by decide,
      and_mask_shift, show v / 2 ^ (8 * 1) % 2 ^ 8 * 2 ^ (8 * 1) = 0 from by
        norm_num; omega]
    rfl
  have hnib : (v &&& 0xF0 == 0) = false := by
    rw [show (0xF0 : Nat) = (2 ^ 4 - 1) <<< 4 from by decide, and_mask_shift]
    simp only [beq_eq_false_iff_ne, ne_eq]
    norm_num
    omega
  have hlow : v &&& 0xFF = v := by
    rw [show (0xFF : Nat) = 2 ^ 8 - 1 from rfl, Nat.and_pow_two_sub_one_eq_mod]
    omega
  obtain ⟨s1, hw1, hi1⟩ := writeBit_step SInv_fresh true
  rw [List.nil_append] at hi1
  obtain ⟨s2, hw2, hi2⟩ := writeBit_step hi1 true
  obtain ⟨s3, hw3, hi3⟩ := writeBit_step hi2 true
  obtain ⟨s4, hw4, hi4⟩ := writeBit_step hi3 false
  obtain ⟨s5, hw5, hi5⟩ := writeByte_step hi4 v
  unfold compressedRoundTrip
  simp only [BitStream.writeCompressed, BitStream.writeCompressedLoop, hflag3,
    hflag2b, hflag1, Bool.not_true, if_false, hnib, Bool.not_false, hlow]
  rw [hw1, bind_ok, hw2, bind_ok, hw3, bind_ok, hw4, bind_ok, hw5]
  rw [if_neg Bool.false_ne_true, if_neg Bool.false_ne_true,
    if_neg Bool.false_ne_true, if_neg Bool.false_ne_true, bind_ok]
  -- decoding
  have hlen : ([true] ++ [true] ++ [true] ++ [false] ++ byteLoopBits v 8).length = 12 := by
    simp [byteLoopBits_length]
  have hg0 : ([true] ++ [true] ++ [true] ++ [false] ++ byteLoopBits v 8).getD 0 false = true := by
    simp [List.singleton_append, List.getD_cons_zero]
  have hg1 : ([true] ++ [true] ++ [true] ++ [false] ++ byteLoopBits v 8).getD 1 false = true := by
    simp [List.singleton_append]
  have hg2 : ([true] ++ [true] ++ [true] ++ [false] ++ byteLoopBits v 8).getD 2 false = true := by
    simp [List.singleton_append]
  have hg3 : ([true] ++ [true] ++ [true] ++ [false] ++ byteLoopBits v 8).getD 3 false = false := by
    simp [List.singleton_append]
  have hsl : sliceBits ([true] ++ [true] ++ [true] ++ [false] ++ byteLoopBits v 8) 4 8 =
      byteLoopBits v 8 := by
    have h := sliceBits_shift ([true] ++ [true] ++ [true] ++ [false]) (byteLoopBits v 8) 0 8
    simp only [List.length_append, List.length_singleton, Nat.add_zero] at h
    rw [show (1 + 1 + 1 + 1 : Nat) = 4 from rfl] at h
    rw [h]
    have hs := sliceBits_self (byteLoopBits v 8)
    rwa [byteLoopBits_length] at hs
  obtain ⟨t1, hr1, hj1⟩ := readBit_step hi5 (by rw [hlen]; all_goals omega)
  rw [hg0, show bitVal true = 1 from rfl] at hr1
  obtain ⟨t2, hr2, hj2⟩ := readBit_step hj1 (by rw [hlen]; all_goals omega)
  rw [show (0 + 1 : Nat) = 1 from rfl] at hr2 hj2
  rw [hg1, show bitVal true = 1 from rfl] at hr2
  obtain ⟨t3, hr3, hj3⟩ := readBit_step hj2 (by rw [hlen]; all_goals omega)
  rw [show (1 + 1 : Nat) = 2 from rfl] at hr3 hj3
  rw [hg2, show bitVal true = 1 from rfl] at hr3
  obtain ⟨t4, hr4, hj4⟩ := readBit_step hj3 (by rw [hlen]; all_goals omega)
  rw [show (2 + 1 : Nat) = 3 from rfl] at hr4 hj4
  rw [hg3, show bitVal false = 0 from rfl] at hr4
  obtain ⟨t5, hr5, hj5⟩ := readByte_step hj4 (by rw [hlen]; all_goals omega)
  rw [show (3 + 1 : Nat) = 4 from rfl] at hr5 hj5
  rw [hsl, valOfBits_byteLoopBits, Nat.mod_eq_of_lt h2] at hr5
  obtain ⟨r1, hrw1, hri1, hrd1⟩ := writeByte_data SInv_fresh (by rfl) v
  obtain ⟨r2, hrw2, hri2, hrd2⟩ := writeByte_data hri1 (by simp [byteLoopBits_length]) 0
  obtain ⟨r3, hrw3, hri3, hrd3⟩ := writeByte_data hri2 (by simp [byteLoopBits_length]) 0
  obtain ⟨r4, hrw4, hri4, hrd4⟩ := writeByte_data hri3 (by simp [byteLoopBits_length]) 0
  simp only [BitStream.readCompressed, BitStream.readCompressedLoop,
    BitStream.readCompressedZeros, BitStream.readCompressedLiterals,
    show (4 - 1 : Nat) = 3 from rfl]
  rw [hr1, bind_ok]
  rw [if_pos (by norm_num : ((1 : Nat) ≠ 0))]
  rw [hr2, bind_ok]
  rw [if_pos (by norm_num : ((1 : Nat) ≠ 0))]
  rw [hr3, bind_ok]
  rw [if_pos (by norm_num : ((1 : Nat) ≠ 0))]
  rw [hr4, bind_ok]
  rw [if_neg (by norm_num : ¬((0 : Nat) ≠ 0))]
  rw [hr5, bind_ok, hrw1, bind_ok, hrw2, bind_ok, hrw3, bind_ok, hrw4, bind_ok]
  simp only [bind_ok]
  show (pure (leValue r4.data) : BRes Nat) = Except.ok v
  rw [hrd4, hrd3, hrd2, hrd1]
  simp only [leValue, BitStream.fresh, BitStream.new, List.nil_append,
    List.foldr, pure, Except.pure, Except.ok.injEq]
  omega

/-! ## Claim C1 -/

/-- C1 (amended): the compressed-integer round trip on a fresh stream
reproduces `v` exactly when `v = 0`, when `16 ≤ v < 256`, or when the top byte
of the `size`-wide representation is nonzero (`2 ^ (8*(size-1)) ≤ v`), for
`size` 2 or 4; and the encoding of the value 0 is the shortest path: `size`
flag bits set, then the 4-bit nibble case (four zero bits). -/
theorem compressed_roundTrip :
    (∀ size v, (size = 2 ∨ size = 4) → v < 2 ^ (8 * size) →
      (v = 0 ∨ (16 ≤ v ∧ v < 256) ∨ 2 ^ (8 * (size - 1)) ≤ v) →
      compressedRoundTrip size v = .ok v) ∧
    (∃ s2, BitStream.fresh.writeCompressed 0 2 = .ok s2 ∧
      SInv (List.replicate 2 true ++ List.replicate 4 false) 0 s2) ∧
    (∃ s4, BitStream.fresh.writeCompressed 0 4 = .ok s4 ∧
      SInv (List.replicate 4 true ++ List.replicate 4 false) 0 s4) := by
  refine ⟨?_, ?_, ?_⟩
  · intro size v hsize hlt hcase
    rcases hsize with hs2 | hs4
    · subst hs2
      rcases hcase with h0 | hbyte | htop
      · subst h0
        decide
      · exact crt2_byte v hbyte.1 hbyte.2
      · refine crt2_top v ?_ ?_
        · norm_num at htop
          omega
        · norm_num at hlt
          omega
    · subst hs4
      rcases hcase with h0 | hbyte | htop
      · subst h0
        decide
      · exact crt4_byte v hbyte.1 hbyte.2
      · refine crt4_top v ?_ ?_
        · norm_num at htop
          omega
        · norm_num at hlt
          omega
  · exact ⟨⟨[192], 1, 0, 7, 0, 1⟩, by decide, by unfold SInv; decide⟩
  · exact ⟨⟨[240], 1, 0, 7, 1, 7⟩, by decide, by unfold SInv; decide⟩

/-- Witness for C1: a concrete instance of the round trip. -/
theorem compressed_roundTrip_witness : compressedRoundTrip 2 300 = .ok 300 :=
  compressed_roundTrip.1 2 300 (Or.inl rfl) (by norm_num)
    (Or.inr (Or.inr (by norm_num)))

/-- Counterexample for C1 as stated: the value 1 is representable unsigned in
2 bytes, but the round trip returns 240 (the decoder writes `0xF0` because of
the JS `readBits(4) << 4 && 0xF0` logical AND), not 1. -/
theorem compressed_roundTrip_cex :
    compressedRoundTrip 2 1 = .ok 240 ∧ compressedRoundTrip 2 1 ≠ .ok 1 := by
  constructor
  · decide
  · decide

/-! ## Claim C2 -/

/-- C2 (confirmed): writing any boolean sequence with `writeBit` on a fresh
stream and reading it back with `readBit` returns the same bits, as 1s and
0s, in order. -/
theorem writeBit_readBit_roundTrip (bs : List Bool) :
    bitRoundTrip bs = .ok (bs.map bitVal) := by
  obtain ⟨s, hw, h⟩ := writeBools_step bs SInv_fresh
  rw [List.nil_append] at h
  obtain ⟨s2, hr, h2⟩ := readN_step bs.length h (by omega)
  unfold bitRoundTrip
  rw [hw, bind_ok, hr, bind_ok, sliceBits_self]
  rfl

/-- Witness for C2 at a concrete bit sequence. -/
theorem writeBit_readBit_roundTrip_witness :
    bitRoundTrip [true, false, true, true] = .ok [1, 0, 1, 1] := by
  have h := writeBit_readBit_roundTrip [true, false, true, true]
  simpa using h

/-! ## Claim C3 -/

theorem writeByteLoop_zero : ∀ k (s : BitStream),
    k = s.writeBitPosition + 1 → s.writeBitPosition < 7 →
    s.data[s.writeBytePosition]? = some 0 →
    s.writeByteLoop 0 k = .ok { s with
      writeBitPosition := 7,
      writeBytePosition := s.writeBytePosition + 1 } := by
  intro k
  induction k with
  | zero =>
    intro s hk _ _
    omega
  | succ k ih =>
    intro s hk hlt7 hsome
    have hin : s.writeBytePosition < s.data.length := by
      by_contra hc
      rw [List.getElem?_eq_none (by omega)] at hsome
      exact Option.noConfusion hsome
    have hbv : s.data.getD s.writeBytePosition 0 = 0 := by
      rw [List.getD_eq_getElem _ _ hin]
      rw [List.getElem?_eq_getElem hin] at hsome
      exact Option.some_inj.mp hsome
    have hshift : ((if (false : Bool) then (1 : Nat) else 0) <<<
        s.writeBitPosition) = 0 := by
      simp [Nat.zero_shiftLeft]
    have hset : s.data.set s.writeBytePosition
        ((s.data.getD s.writeBytePosition 0) |||
          ((if (false : Bool) then (1 : Nat) else 0) <<< s.writeBitPosition)) =
        s.data := by
      rw [hbv, hshift, Nat.zero_or]
      exact set_get_self _ _ _ hsome
    simp only [BitStream.writeByteLoop]
    rw [show (((0 : Nat) &&& 0x80) >>> 7 == 1) = false from rfl,
      show (((0 : Nat) <<< 1) &&& 0xFF) = 0 from rfl]
    by_cases h0 : s.writeBitPosition = 0
    · rw [writeBit_eq_last s false (by omega) h0 hin, bind_ok, hset]
      have hk0 : k = 0 := by omega
      subst hk0
      rfl
    · rw [writeBit_eq_mid s false (by omega) h0 hin, bind_ok, hset]
      have hrec := ih { s with writeBitPosition := s.writeBitPosition - 1 }
        (by show k = s.writeBitPosition - 1 + 1; omega)
        (by show s.writeBitPosition - 1 < 7; omega)
        (by simpa using hsome)
      rw [hrec]

theorem readBit_overread (s : BitStream)
    (hdl : s.data.length = s.byteCount)
    (hover : s.byteCount ≤ s.readBytePosition)
    (h7 : s.writeBitPosition = 7) :
    s.readBit = .ok (0,
      { s with
        data := s.data ++ List.replicate (s.readBytePosition + 1 - s.byteCount) 0,
        byteCount := s.readBytePosition + 1,
        writeBytePosition := s.readBytePosition + 1,
        readBytePosition :=
          if s.readBitPosition = 0 then s.readBytePosition + 1
          else s.readBytePosition,
        readBitPosition :=
          if s.readBitPosition = 0 then 7 else s.readBitPosition - 1 }) := by
  have hshift0 : ((if (false : Bool) then (1 : Nat) else 0) <<< 7) = 0 := by
    simp [Nat.zero_shiftLeft]
  have hdata : s.data ++ (List.replicate (s.readBytePosition - s.data.length) 0
      ++ [(0 : Nat)]) =
      s.data ++ List.replicate (s.readBytePosition + 1 - s.byteCount) 0 := by
    rw [← List.replicate_succ']
    congr 2
    omega
  have hrl : ({ s with writeBytePosition := s.readBytePosition } :
      BitStream).writeBit false = .ok { s with
        data := s.data ++ List.replicate (s.readBytePosition + 1 - s.byteCount) 0,
        byteCount := s.readBytePosition + 1,
        writeBytePosition := s.readBytePosition,
        writeBitPosition := 6 } := by
    rw [writeBit_eq_realloc { s with writeBytePosition := s.readBytePosition }
      false h7 (by show s.data.length ≤ s.readBytePosition; omega)]
    dsimp only
    rw [hshift0, hdata]
  have hget2 : (s.data ++ List.replicate (s.readBytePosition + 1 - s.byteCount)
      (0 : Nat))[s.readBytePosition]? = some 0 := by
    rw [List.getElem?_append_right (by omega)]
    rw [List.getElem?_eq_getElem (by simp; omega)]
    simp
  have hloop := writeByteLoop_zero 7
    { s with
      data := s.data ++ List.replicate (s.readBytePosition + 1 - s.byteCount) 0,
      byteCount := s.readBytePosition + 1,
      writeBytePosition := s.readBytePosition,
      writeBitPosition := 6 }
    (by show (7 : Nat) = 6 + 1; rfl) (by show (6 : Nat) < 7; norm_num)
    (by simpa using hget2)
  have hstep : ∀ (t : BitStream), t.writeByteLoop 0 8 =
      (t.writeBit (((0 : Nat) &&& 0x80) >>> 7 == 1) >>= fun t2 =>
        t2.writeByteLoop (((0 : Nat) <<< 1) &&& 0xFF) 7) := fun t => rfl
  simp only [BitStream.readBit, if_pos hover, BitStream.writeByte]
  rw [hstep, show (((0 : Nat) &&& 0x80) >>> 7 == 1) = false from rfl,
    show (((0 : Nat) <<< 1) &&& 0xFF) = 0 from rfl]
  rw [hrl, bind_ok, hloop, bind_ok]
  rw [hget2]
  simp only [Nat.zero_and, Nat.zero_shiftRight]
  rw [h7]
  split
  · rfl
  · rfl

/-- C3 (amended): on an overread (`byteCount ≤ readBytePosition`) of a stream
whose buffer length matches `byteCount` and whose write cursor is byte aligned
(`writeBitPosition = 7`), `readBit` returns bit value 0 and extends the buffer
with zero bytes up to and including the read position; but the write cursor is
not restored after the call: `writeBytePosition` ends at
`readBytePosition + 1` (and `writeBitPosition` back at 7 only because the
injected `writeByte 0` completed a full byte). -/
theorem readBit_overread_moves_write_cursor (s : BitStream)
    (hdl : s.data.length = s.byteCount)
    (hover : s.byteCount ≤ s.readBytePosition)
    (h7 : s.writeBitPosition = 7) :
    s.readBit = .ok (0,
      { s with
        data := s.data ++ List.replicate (s.readBytePosition + 1 - s.byteCount) 0,
        byteCount := s.readBytePosition + 1,
        writeBytePosition := s.readBytePosition + 1,
        readBytePosition :=
          if s.readBitPosition = 0 then s.readBytePosition + 1
          else s.readBytePosition,
        readBitPosition :=
          if s.readBitPosition = 0 then 7 else s.readBitPosition - 1 }) :=
  readBit_overread s hdl hover h7

/-- Witness for C3 at a concrete overread state. -/
theorem readBit_overread_moves_write_cursor_witness :
    (⟨[7], 1, 1, 7, 1, 7⟩ : BitStream).readBit =
      .ok (0, ⟨[7, 0], 2, 1, 6, 2, 7⟩) := by
  have h := readBit_overread_moves_write_cursor ⟨[7], 1, 1, 7, 1, 7⟩ rfl
    (by decide) rfl
  exact h.trans (by decide)

/-- Counterexample for C3 as stated: after an overread `readBit` on a fresh
stream the write cursor has moved (`writeBytePosition` is 1, not the original
0), and when the write cursor is not byte aligned at the moment of the
overread (4 bits written, 9 bits read) the call throws instead of returning
zero bits. -/
theorem readBit_overread_cex :
    BitStream.fresh.readBit = .ok (0, ⟨[0], 1, 0, 6, 1, 7⟩) ∧
    (⟨[0], 1, 0, 6, 1, 7⟩ : BitStream).writeBytePosition ≠
      BitStream.fresh.writeBytePosition ∧
    isError (do
      let s ← BitStream.fresh.writeBools [true, true, true, true]
      s.readN 9) = true :=
  ⟨by decide, by decide, by decide⟩

/-- C4 (amended): on states reachable by writing bits to a fresh stream,
`writeBit` never shrinks the buffer: `length()` is non-decreasing, grows by at
most one byte, and grows by exactly one byte precisely when the bit count is a
multiple of 8 (a new byte is needed).  On streams constructed pre-loaded from
an existing buffer the original claim fails: see the counterexample. -/
theorem writeBit_length_growth {w : List Bool} {r : Nat} {s : BitStream}
    (h : SInv w r s) (b : Bool) {s2 : BitStream}
    (hw : s.writeBit b = .ok s2) :
    s.length ≤ s2.length ∧ s2.length ≤ s.length + 1 ∧
      (s2.length = s.length + 1 ↔ w.length % 8 = 0) := by
  obtain ⟨s3, hw3, h3⟩ := writeBit_step h b
  rw [hw3] at hw
  have hs : s3 = s2 := Except.ok.inj hw
  subst hs
  have h1 : s.byteCount = (w.length + 7) / 8 := h.1
  have h2 : s3.byteCount = ((w ++ [b]).length + 7) / 8 := h3.1
  rw [List.length_append, List.length_singleton] at h2
  unfold BitStream.length
  omega

/-- Witness for C4: writing one bit to a fresh stream grows the buffer by
exactly one byte. -/
theorem writeBit_length_growth_witness :
    BitStream.fresh.length ≤ (⟨[128], 1, 0, 7, 0, 6⟩ : BitStream).length ∧
    (⟨[128], 1, 0, 7, 0, 6⟩ : BitStream).length ≤ BitStream.fresh.length + 1 ∧
    ((⟨[128], 1, 0, 7, 0, 6⟩ : BitStream).length = BitStream.fresh.length + 1 ↔
      ([] : List Bool).length % 8 = 0) :=
  writeBit_length_growth SInv_fresh true (by decide)

/-- Counterexample for C4 as stated: a stream pre-loaded with two bytes loses
one of them on the first `writeBit` (the reallocation sizes the new buffer
from the write cursor, not from the current length). -/
theorem writeBit_length_growth_cex :
    (BitStream.new [171, 205]).length = 2 ∧
    (BitStream.new [171, 205]).writeBit true = .ok ⟨[128], 1, 0, 7, 0, 6⟩ ∧
    (⟨[128], 1, 0, 7, 0, 6⟩ : BitStream).length < (BitStream.new [171, 205]).length :=
  ⟨by decide, by decide, by decide⟩

theorem bufferCopy_alloc_length (src : List Nat) (c : Nat) :
    (bufferCopy src (bufferAlloc c)).length = c := by
  unfold bufferCopy bufferAlloc
  simp only [List.length_append, List.length_take, List.length_drop,
    List.length_replicate]
  omega

/-- C5 (amended): the `typeof` guard of `writeBit` throws on every non-boolean
argument with the stream completely unmodified (the carried state is the input
state); on a boolean argument the call succeeds whenever the write cursor is
byte aligned or points inside the buffer — which covers every freshly
constructed stream and every state reachable by writes.  (On the broken states
left behind by a failed overread the boolean case can still throw: see the
counterexample.) -/
theorem writeBitChecked_guard :
    (∀ (s : BitStream) (v : JSValue), (∀ b, v ≠ .boolean b) →
      s.writeBitChecked v =
        .error ("BitStream writeBit was not passed a boolean", s)) ∧
    (∀ (s : BitStream) (b : Bool),
      s.writeBitPosition = 7 ∨ s.writeBytePosition < s.data.length →
      ∃ s2, s.writeBitChecked (.boolean b) = .ok s2) := by
  constructor
  · intro s v hv
    cases v with
    | boolean b => exact absurd rfl (hv b)
    | number n => rfl
    | string t => rfl
    | nullValue => rfl
    | undefinedValue => rfl
  · intro s b hok
    show ∃ s2, s.writeBit b = .ok s2
    unfold BitStream.writeBit
    by_cases h7 : s.writeBitPosition = 7
    · rw [if_pos h7]
      have hlen : ((bufferCopy s.data (bufferAlloc (s.writeBytePosition + 1))).set
          s.writeBytePosition 0).length = s.writeBytePosition + 1 := by
        rw [List.length_set, bufferCopy_alloc_length]
      have hin : s.writeBytePosition <
          ((bufferCopy s.data (bufferAlloc (s.writeBytePosition + 1))).set
            s.writeBytePosition 0).length := by
        rw [hlen]
        omega
      dsimp only
      rw [List.getElem?_eq_getElem hin]
      dsimp only
      split
      · exact ⟨_, rfl⟩
      · exact ⟨_, rfl⟩
    · rw [if_neg h7]
      have hin : s.writeBytePosition < s.data.length := by
        rcases hok with hok | hok
        · exact absurd hok h7
        · exact hok
      dsimp only
      rw [List.getElem?_eq_getElem hin]
      dsimp only
      split
      · exact ⟨_, rfl⟩
      · exact ⟨_, rfl⟩

/-- Witness for C5: a number argument throws on a fresh stream with the state
unmodified, and a boolean argument succeeds. -/
theorem writeBitChecked_guard_witness :
    BitStream.fresh.writeBitChecked (.number 1) =
      .error ("BitStream writeBit was not passed a boolean", BitStream.fresh) ∧
    isError (BitStream.fresh.writeBitChecked (.boolean true)) = false := by
  refine ⟨writeBitChecked_guard.1 BitStream.fresh (.number 1)
    (fun b h => JSValue.noConfusion h), ?_⟩
  obtain ⟨s2, h2⟩ := writeBitChecked_guard.2 BitStream.fresh true (Or.inl rfl)
  rw [h2]
  rfl

/-- Counterexample for C5 as stated: on the state left behind by a failed
overread (write 4 bits, then attempt to read 9), a subsequent `writeBit` with
a genuine boolean argument throws. -/
theorem writeBitChecked_guard_cex :
    isError ((⟨[240], 1, 0, 7, 1, 3⟩ : BitStream).writeBitChecked
      (.boolean true)) = true :=
  by decide

/-- C6 (code bug): `writeSignedByte` runs the byte loop for only 7 iterations,
so it emits the sign bit followed by bits 7..1 of `|n|` — the least
significant magnitude bit is never written.  `readSignedChar` after
`writeSignedByte n` therefore returns `sign(n) * (|n| / 2)` instead of `n`:
round-tripping 1 yields 0, 100 yields 50, and -7 yields -3. -/
theorem signedByte_roundTrip_bug :
    signedByteRoundTrip 1 = .ok 0 ∧ signedByteRoundTrip 1 ≠ .ok 1 ∧
    signedByteRoundTrip 100 = .ok 50 ∧ signedByteRoundTrip (-7) = .ok (-3) :=
  ⟨by decide, by decide, by decide, by decide⟩

/-- C7 (amended): on a state reachable by writing `w` and then reading `k ≤ |w|`
bits, `allRead()` is true iff the bits consumed are byte aligned and the read
byte cursor has reached at least the last byte of the buffer — reading back
exactly the bits written leaves `allRead()` false whenever the last byte is
only partially filled, because the comparison counts whole bytes on the write
side while the read-bit cursor counts down from 7. -/
theorem allRead_iff {w : List Bool} {k : Nat} {s : BitStream}
    (h : SInv w k s) (hk : k ≤ w.length) :
    (s.allRead = true ↔ (k % 8 = 0 ∧ (w.length + 7) / 8 ≤ k / 8 + 1)) := by
  obtain ⟨h1, h2, h3, h4, h5, h6, h7, h8⟩ := h
  unfold BitStream.allRead
  rw [h1, h5, h6]
  simp only [decide_eq_true_eq]
  omega

/-- Witness for C7: after writing one bit (none read back), `allRead()` agrees
with the amended condition. -/
theorem allRead_iff_witness :
    ((⟨[128], 1, 0, 7, 0, 6⟩ : BitStream).allRead = true ↔
      (0 % 8 = 0 ∧ (1 + 7) / 8 ≤ 0 / 8 + 1)) := by
  have h : SInv [true] 0 ⟨[128], 1, 0, 7, 0, 6⟩ := by
    unfold SInv
    decide
  exact allRead_iff h (by decide)

/-- Counterexample for C7 as stated: after writing 4 bits and reading all 4
back, `bits()` reports 4 bits written and all of them have been consumed, yet
`allRead()` is false. -/
theorem allRead_iff_cex :
    allReadAfter [true, true, true, true] 4 = .ok (false, 4) :=
  by decide

theorem SInv_data_unique {w : List Bool} {r r2 : Nat} {s s2 : BitStream}
    (h : SInv w r s) (h2 : SInv w r2 s2) : s.data = s2.data := by
  apply List.ext_getElem (by rw [h.2.1, h2.2.1])
  intro j hj1 hj2
  rw [← List.getD_eq_getElem _ (0 : Nat) hj1, ← List.getD_eq_getElem _ (0 : Nat) hj2,
    SInv_byte h j hj1, SInv_byte h2 j hj2]

theorem writeStringBytes_steps : ∀ (cs : List Nat) {w : List Bool} {r : Nat}
    {s : BitStream}, SInv w r s → w.length % 8 = 0 →
    ∃ s2 w2, s.writeStringBytes cs = .ok s2 ∧ SInv w2 r s2 ∧
      w2.length = w.length + 8 * cs.length ∧
      s2.data = s.data ++ cs.map (fun c => c % 256) := by
  intro cs
  induction cs with
  | nil =>
    intro w r s h _
    exact ⟨s, w, rfl, h, by simp, by simp⟩
  | cons c cs ih =>
    intro w r s h hal
    obtain ⟨s2, hw, h2, hd⟩ := writeByte_data h hal c
    obtain ⟨s3, w3, hw3, h3, hlen3, hd3⟩ := ih h2
      (by rw [List.length_append, byteLoopBits_length]; omega)
    refine ⟨s3, w3, ?_, h3, ?_, ?_⟩
    · simp only [BitStream.writeStringBytes]
      rw [hw, bind_ok, hw3]
    · rw [hlen3, List.length_append, byteLoopBits_length]
      simp only [List.length_cons]
      ring
    · rw [hd3, hd]
      simp [List.append_assoc]

theorem readBytesLoop_spec : ∀ n q {w : List Bool} {s : BitStream}
    {wv : List Bool} {val : BitStream},
    SInv w (8 * q) s → w.length % 8 = 0 →
    SInv wv 0 val → wv.length % 8 = 0 →
    ∃ ret s2, BitStream.readBytesLoop s val n = .ok (ret, s2) ∧
      ret.data = val.data ++ (s.data.drop q).take n := by
  intro n
  induction n with
  | zero =>
    intro q w s wv val h hal hv hval
    exact ⟨val, s, rfl, by simp⟩
  | succ n ih =>
    intro q w s wv val h hal hv hval
    have hrby : s.readBytePosition = q := by
      have h5 := h.2.2.2.2.1
      omega
    have hbc : s.byteCount = (w.length + 7) / 8 := h.1
    have hdl : s.data.length = (w.length + 7) / 8 := h.2.1
    by_cases hq : s.readBytePosition < s.length
    · have hql : 8 * q + 8 ≤ w.length := by
        unfold BitStream.length at hq
        omega
      have hqlt : q < s.data.length := by
        unfold BitStream.length at hq
        omega
      obtain ⟨s2, hrd, h2⟩ := readByte_step h hql
      have hvval : valOfBits (sliceBits w (8 * q) 8) = s.data.getD q 0 :=
        (SInv_byte h q hqlt).symm
      have hb256 : s.data.getD q 0 < 256 := by
        rw [List.getD_eq_getElem _ _ hqlt]
        exact h.2.2.2.2.2.2.2 _ (List.getElem_mem hqlt)
      obtain ⟨val2, hwv, hv2, hvd⟩ := writeByte_data hv hval (s.data.getD q 0)
      have h2q : SInv w (8 * (q + 1)) s2 := by
        have harith : 8 * q + 8 = 8 * (q + 1) := by ring
        rwa [harith] at h2
      obtain ⟨ret, s3, hloop, hretd⟩ := ih (q + 1) h2q hal hv2
        (by rw [List.length_append, byteLoopBits_length]; omega)
      refine ⟨ret, s3, ?_, ?_⟩
      · simp only [BitStream.readBytesLoop]
        rw [if_pos hq, hrd, bind_ok]
        show (val.writeByte (valOfBits (sliceBits w (8 * q) 8)) >>= fun val2 =>
          BitStream.readBytesLoop s2 val2 n) = _
        rw [hvval, hwv, bind_ok, hloop]
      · rw [hretd, hvd]
        have hdata_eq : s2.data = s.data := SInv_data_unique h2q h
        rw [hdata_eq, Nat.mod_eq_of_lt hb256]
        rw [List.drop_eq_getElem_cons hqlt, List.take_succ_cons,
          ← List.getD_eq_getElem _ (0 : Nat) hqlt]
        simp [List.append_assoc]
    · refine ⟨val, s, ?_, ?_⟩
      · simp only [BitStream.readBytesLoop]
        rw [if_neg hq]
      · have hdrop : s.data.drop q = [] := by
          apply List.drop_eq_nil_of_le
          unfold BitStream.length at hq
          omega
        rw [hdrop]
        simp

/-- C8 (amended): `readBytes n` on a stream holding byte values `vs` returns a
stream containing the first `n` of them; when fewer than `n` bytes remain the
loop simply stops — the result holds only the available bytes and is not
zero-extended to `n` bytes (see the counterexample). -/
theorem readBytes_takes_available (vs : List Nat) (n : Nat)
    (hvs : ∀ v ∈ vs, v < 256) :
    readBytesData vs n = .ok (vs.take n) := by
  obtain ⟨s, w2, hw, hinv, hlen, hdata⟩ := writeStringBytes_steps vs SInv_fresh rfl
  have hmap : vs.map (fun v => v % 256) = vs := by
    have h1 : vs.map (fun v => v % 256) = vs.map id :=
      List.map_congr_left (fun v hv => Nat.mod_eq_of_lt (hvs v hv))
    rw [h1, List.map_id]
  have hdata2 : s.data = vs := by
    rw [hdata, hmap]
    rfl
  have hinv0 : SInv w2 (8 * 0) s := by
    rw [Nat.mul_zero]
    exact hinv
  have hal : w2.length % 8 = 0 := by
    rw [hlen]
    simp
  obtain ⟨ret, s2, hloop, hretd⟩ := readBytesLoop_spec n 0 hinv0 hal SInv_fresh rfl
  unfold readBytesData mkByteStream
  rw [hw, bind_ok]
  show (s.readBytes n >>= fun p => pure p.1.data) = _
  unfold BitStream.readBytes
  rw [hloop, bind_ok, hretd, hdata2]
  show Except.ok (BitStream.fresh.data ++ (vs.drop 0).take n) = _
  simp [BitStream.fresh, BitStream.new]

/-- Witness for C8 on a concrete stream with enough bytes. -/
theorem readBytes_takes_available_witness :
    readBytesData [17, 34] 1 = .ok [17] :=
  (readBytes_takes_available [17, 34] 1 (by decide)).trans (by decide)

/-- Counterexample for C8 as stated: reading 2 bytes from a 1-byte stream
returns a single byte, not a zero-extended pair. -/
theorem readBytes_takes_available_cex :
    readBytesData [171] 2 = .ok [171] ∧ readBytesData [171] 2 ≠ .ok [171, 0] :=
  ⟨by decide, by decide⟩

/-- C10 (confirmed): when the string is at least as long as the field width,
`writeString` pads with zero characters up to nothing and writes one byte per
character of the whole string, in order (no truncation to `size` bytes); the
buffer afterwards holds exactly the low byte of every character code. -/
theorem writeString_no_truncation (cs : List Nat) (size : Nat)
    (hsz : size ≤ cs.length) :
    writeStringData cs size = .ok (cs.map (fun c => c % 256)) ∧
    (cs.map (fun c => c % 256)).length = cs.length := by
  refine ⟨?_, by simp⟩
  unfold writeStringData BitStream.writeString
  have hpad : cs ++ List.replicate (size - cs.length) 0 = cs := by
    rw [Nat.sub_eq_zero_of_le hsz]
    simp
  rw [hpad]
  obtain ⟨s, w2, hw, _, _, hdata⟩ := writeStringBytes_steps cs SInv_fresh rfl
  rw [hw, bind_ok, hdata]
  show Except.ok (BitStream.fresh.data ++ _) = _
  simp [BitStream.fresh, BitStream.new]

/-- Witness for C10: a three-character string with field width 2 writes all
three bytes. -/
theorem writeString_no_truncation_witness :
    writeStringData [72, 105, 33] 2 = .ok [72, 105, 33] := by
  have h := writeString_no_truncation [72, 105, 33] 2 (by decide)
  exact h.1.trans (by decide)

theorem valOfBits_slice32 (c0 c1 c2 c3 : List Bool)
    (h0 : c0.length = 8) (h1 : c1.length = 8) (h2 : c2.length = 8)
    (h3 : c3.length = 8) :
    sliceBits (((c0 ++ c1) ++ c2) ++ c3) 0 8 = c0 ∧
    sliceBits (((c0 ++ c1) ++ c2) ++ c3) 8 8 = c1 ∧
    sliceBits (((c0 ++ c1) ++ c2) ++ c3) 16 8 = c2 ∧
    sliceBits (((c0 ++ c1) ++ c2) ++ c3) 24 8 = c3 := by
  refine ⟨?_, ?_, ?_, ?_⟩
  · rw [sliceBits_append_left _ _ _ _ (by simp [h0, h1, h2]),
      sliceBits_append_left _ _ _ _ (by simp [h0, h1]),
      sliceBits_chunk _ _ h0]
  · rw [show ((c0 ++ c1) ++ c2) ++ c3 = c0 ++ (c1 ++ (c2 ++ c3)) from by
      simp [List.append_assoc]]
    nth_rewrite 1 [show (8 : Nat) = c0.length + 0 from by omega]
    rw [sliceBits_shift, sliceBits_chunk _ _ h1]
  · rw [show ((c0 ++ c1) ++ c2) ++ c3 = (c0 ++ c1) ++ (c2 ++ c3) from by
      simp [List.append_assoc]]
    rw [show (16 : Nat) = (c0 ++ c1).length + 0 from by simp [h0, h1],
      sliceBits_shift, sliceBits_chunk _ _ h2]
  · rw [show (24 : Nat) = ((c0 ++ c1) ++ c2).length + 0 from by
      simp [h0, h1, h2], sliceBits_shift]
    rw [show (8 : Nat) = c3.length from h3.symm, sliceBits_self]

theorem valOfBits_byte_and_ff (m : Nat) :
    valOfBits (byteLoopBits (m &&& 0xff) 8) = m % 256 := by
  rw [valOfBits_byteLoopBits, show (0xff : Nat) = 2 ^ 8 - 1 from rfl,
    Nat.and_pow_two_sub_one_eq_mod]
  norm_num

theorem valOfBits_byte_ff00 (m : Nat) :
    valOfBits (byteLoopBits ((m &&& 0xff00) >>> 8) 8) = m / 256 % 256 := by
  rw [valOfBits_byteLoopBits, show (0xff00 : Nat) = (2 ^ 8 - 1) <<< 8 from rfl,
    and_mask_shift, Nat.shiftRight_eq_div_pow,
    Nat.mul_div_cancel _ (Nat.pos_pow_of_pos _ (by norm_num))]
  norm_num

theorem valOfBits_e0_m7 (e m : Nat) :
    valOfBits ((((e &&& 0x01) == 1)) :: writeBitsBits ((m &&& 0x7f0000) >>> 16) 7) =
      (e % 2) * 128 + m / 65536 % 128 := by
  have hc : valOfBits ((((e &&& 0x01) == 1)) ::
      writeBitsBits ((m &&& 0x7f0000) >>> 16) 7) =
      valOfBitsAux (2 * 0 + bitVal (((e &&& 0x01) == 1)))
        (writeBitsBits ((m &&& 0x7f0000) >>> 16) 7) := rfl
  rw [hc, valOfBitsAux_eq, writeBitsBits_length, valOfBits_writeBitsBits7]
  rw [show (0x7f0000 : Nat) = (2 ^ 7 - 1) <<< 16 from rfl, and_mask_shift,
    Nat.shiftRight_eq_div_pow,
    Nat.mul_div_cancel _ (Nat.pos_pow_of_pos _ (by norm_num))]
  rw [show (0x01 : Nat) = 2 ^ 1 - 1 from rfl, Nat.and_pow_two_sub_one_eq_mod]
  rcases Nat.mod_two_eq_zero_or_one e with h | h
  · rw [show (2 : Nat) ^ 1 = 2 from rfl, h]
    norm_num [bitVal]
  · rw [show (2 : Nat) ^ 1 = 2 from rfl, h]
    norm_num [bitVal]

theorem valOfBits_sg_e7 (sg : Bool) (e : Nat) :
    valOfBits (sg :: writeBitsBits ((e &&& 0xfe) >>> 1) 7) =
      bitVal sg * 128 + e / 2 % 128 := by
  have hc : valOfBits (sg :: writeBitsBits ((e &&& 0xfe) >>> 1) 7) =
      valOfBitsAux (2 * 0 + bitVal sg) (writeBitsBits ((e &&& 0xfe) >>> 1) 7) := rfl
  rw [hc, valOfBitsAux_eq, writeBitsBits_length, valOfBits_writeBitsBits7]
  rw [show (0xfe : Nat) = (2 ^ 7 - 1) <<< 1 from rfl, and_mask_shift,
    Nat.shiftRight_eq_div_pow,
    Nat.mul_div_cancel _ (Nat.pos_pow_of_pos _ (by norm_num))]
  norm_num

theorem writeFloat_emit (q : ℚ) :
    ∃ s2, BitStream.fresh.writeFloat q = .ok s2 ∧
      s2.data = [floatM q % 256, floatM q / 256 % 256,
        (floatE q % 2) * 128 + floatM q / 65536 % 128,
        bitVal (decide (q < 0)) * 128 + floatE q / 2 % 128] := by
  have key : ∀ (m e : Nat) (sg : Bool),
      ∃ s2, (BitStream.fresh.writeByte (m &&& 0xff) >>= fun s2 =>
        s2.writeByte ((m &&& 0xff00) >>> 8) >>= fun s3 =>
        s3.writeBit ((e &&& 0x01) == 1) >>= fun s4 =>
        s4.writeBits ((m &&& 0x7f0000) >>> 16) 7 >>= fun s5 =>
        s5.writeBit sg >>= fun s6 =>
        s6.writeBits ((e &&& 0xfe) >>> 1) 7) = .ok s2 ∧
        s2.data = [m % 256, m / 256 % 256,
          (e % 2) * 128 + m / 65536 % 128,
          bitVal sg * 128 + e / 2 % 128] := by
    intro m e sg
    obtain ⟨s2, hw1, h1⟩ := writeByte_step SInv_fresh (m &&& 0xff)
    obtain ⟨s3, hw2, h2⟩ := writeByte_step h1 ((m &&& 0xff00) >>> 8)
    obtain ⟨s4, hw3, h3⟩ := writeBit_step h2 ((e &&& 0x01) == 1)
    obtain ⟨s5, hw4, h4⟩ := writeBits_step 7 (n := (m &&& 0x7f0000) >>> 16) h3
    obtain ⟨s6, hw5, h5⟩ := writeBit_step h4 sg
    obtain ⟨s7, hw6, h6⟩ := writeBits_step 7 (n := (e &&& 0xfe) >>> 1) h5
    refine ⟨s7, ?_, ?_⟩
    · rw [hw1, bind_ok, hw2, bind_ok, hw3, bind_ok, hw4, bind_ok, hw5,
        bind_ok, hw6]
    · have hW : ((((([] ++ byteLoopBits (m &&& 0xff) 8) ++
          byteLoopBits ((m &&& 0xff00) >>> 8) 8) ++ [((e &&& 0x01) == 1)]) ++
          writeBitsBits ((m &&& 0x7f0000) >>> 16) 7) ++ [sg]) ++
          writeBitsBits ((e &&& 0xfe) >>> 1) 7 =
          ((byteLoopBits (m &&& 0xff) 8 ++
            byteLoopBits ((m &&& 0xff00) >>> 8) 8) ++
           (((e &&& 0x01) == 1) :: writeBitsBits ((m &&& 0x7f0000) >>> 16) 7)) ++
          (sg :: writeBitsBits ((e &&& 0xfe) >>> 1) 7) := by
        simp [List.append_assoc]
      rw [hW] at h6
      obtain ⟨hsl0, hsl1, hsl2, hsl3⟩ := valOfBits_slice32
        (byteLoopBits (m &&& 0xff) 8)
        (byteLoopBits ((m &&& 0xff00) >>> 8) 8)
        ((((e &&& 0x01) == 1)) :: writeBitsBits ((m &&& 0x7f0000) >>> 16) 7)
        (sg :: writeBitsBits ((e &&& 0xfe) >>> 1) 7)
        (byteLoopBits_length _ _) (byteLoopBits_length _ _)
        (by simp [writeBitsBits_length]) (by simp [writeBitsBits_length])
      have hdl4 : s7.data.length = 4 := by
        have hx := h6.2.1
        simp only [List.length_append, List.length_cons, byteLoopBits_length,
          writeBitsBits_length] at hx
        omega
      apply List.ext_getElem (by simp [hdl4])
      intro j hj1 hj2
      rw [← List.getD_eq_getElem _ (0 : Nat) hj1, SInv_byte h6 j hj1]
      have hj4 : j < 4 := by
        rw [hdl4] at hj1
        exact hj1
      interval_cases j
      · rw [show (8 * 0 : Nat) = 0 from rfl, hsl0, valOfBits_byte_and_ff]
        rfl
      · rw [show (8 * 1 : Nat) = 8 from rfl, hsl1, valOfBits_byte_ff00]
        rfl
      · rw [show (8 * 2 : Nat) = 16 from rfl, hsl2, valOfBits_e0_m7]
        rfl
      · rw [show (8 * 3 : Nat) = 24 from rfl, hsl3, valOfBits_sg_e7]
        rfl
  obtain ⟨s2, hch, hd⟩ := key (floatM q) (floatE q) (decide (q < 0))
  exact ⟨s2, hch, hd⟩

/-- C9 (confirmed): `writeFloat` emits the low 16 mantissa bits as two
little-endian bytes, then exponent bit 0, then mantissa bits 16..22, then the
sign bit, then exponent bits 1..7, where `floatE` is the exponent biased by
127 and `floatM` the 24-bit mantissa with the implicit leading 1 removed; in
particular the float64 value of 3.14 (`7070651414971679 / 2^51`) produces the
bytes `[0xC3, 0xF5, 0x48, 0x40]`. -/
theorem writeFloat_layout :
    (∀ q : ℚ, writeFloatBytes q = .ok
      [floatM q % 256, floatM q / 256 % 256,
       (floatE q % 2) * 128 + floatM q / 65536 % 128,
       (if q < 0 then 128 else 0) + floatE q / 2 % 128]) ∧
    writeFloatBytes ((7070651414971679 : ℚ) / 2 ^ 51) =
      .ok [0xC3, 0xF5, 0x48, 0x40] := by
  have hgen : ∀ q : ℚ, writeFloatBytes q = .ok
      [floatM q % 256, floatM q / 256 % 256,
       (floatE q % 2) * 128 + floatM q / 65536 % 128,
       (if q < 0 then 128 else 0) + floatE q / 2 % 128] := by
    intro q
    obtain ⟨s2, hw, hd⟩ := writeFloat_emit q
    show (BitStream.fresh.writeFloat q >>= fun s => pure s.data) = _
    rw [hw, bind_ok, hd]
    by_cases hq : q < 0
    · simp [bitVal, hq, pure, Except.pure]
    · simp [bitVal, hq, pure, Except.pure]
  refine ⟨hgen, ?_⟩
  have hq := hgen ((7070651414971679 : ℚ) / 2 ^ 51)
  have habs : |(7070651414971679 : ℚ) / 2 ^ 51| =
      (7070651414971679 : ℚ) / 2 ^ 51 := abs_of_pos (by norm_num)
  have hlog : Int.log 2 |(7070651414971679 : ℚ) / 2 ^ 51| = 1 := by
    rw [habs]
    have h1 : (1 : ℤ) ≤ Int.log 2 ((7070651414971679 : ℚ) / 2 ^ 51) := by
      rw [← Int.zpow_le_iff_le_log (by norm_num) (by norm_num)]
      norm_num
    have h2 : Int.log 2 ((7070651414971679 : ℚ) / 2 ^ 51) < 2 := by
      rw [← Int.lt_zpow_iff_log_lt (by norm_num) (by norm_num)]
      norm_num
    omega
  have hE : floatE ((7070651414971679 : ℚ) / 2 ^ 51) = 128 := by
    unfold floatE
    rw [hlog]
    rfl
  have hM : floatM ((7070651414971679 : ℚ) / 2 ^ 51) = 4781507 := by
    unfold floatM
    rw [hlog, habs]
    have hceil : ⌈((7070651414971679 : ℚ) / 2 ^ 51 / (2 : ℚ) ^ (1 : ℤ) - 1) /
        ((1 : ℚ) / 8388608)⌉ = (4781507 : ℤ) := by
      rw [Int.ceil_eq_iff]
      constructor <;> norm_num
    rw [hceil]
    rfl
  rw [hq, hE, hM]
  norm_num
